import Mathlib

/-!
Verification development for the codealchemy-postman HTTP client
(Go, Fyne UI).  The Go source is shallowly embedded: text is modelled as
`List Char` (one element per rune), Go slices as `List`, Go maps as
canonical (key-sorted, duplicate-free) association lists, fallible or
panicking operations as `Option`/`Except`.  Each definition mirrors the
function of the same name in the Go source.
-/

namespace Postman

/-! ## Go standard-library text primitives used by the source -/

/-- The set of characters trimmed by Go `strings.TrimSpace`
(`unicode.IsSpace`): ASCII whitespace, the Latin-1 spaces, and the
Unicode space separators. -/
def goIsSpace (c : Char) : Bool :=
  c = ' ' ∨ c = '\t' ∨ c = '\n' ∨ c = Char.ofNat 0x0b ∨ c = Char.ofNat 0x0c ∨
  c = '\r' ∨ c = Char.ofNat 0x85 ∨ c = Char.ofNat 0xa0 ∨ c = Char.ofNat 0x1680 ∨
  (Char.ofNat 0x2000 ≤ c ∧ c ≤ Char.ofNat 0x200a) ∨ c = Char.ofNat 0x2028 ∨
  c = Char.ofNat 0x2029 ∨ c = Char.ofNat 0x202f ∨ c = Char.ofNat 0x205f ∨
  c = Char.ofNat 0x3000

/-- Go `strings.TrimSpace`: drop leading and trailing whitespace. -/
def goTrimSpace (s : List Char) : List Char :=
  ((s.dropWhile goIsSpace).reverse.dropWhile goIsSpace).reverse

/-- Go `strings.Split(s, sep)` for a one-character separator: split on
every occurrence, keeping empty segments (result is never empty). -/
def goSplit (sep : Char) : List Char → List (List Char)
  | [] => [[]]
  | c :: rest =>
    if c = sep then [] :: goSplit sep rest
    else
      match goSplit sep rest with
      | [] => [[c]]
      | l :: ls => (c :: l) :: ls

/-- Go `strings.SplitN(line, ":", 2)` restricted to the two-part case:
`some (before, after)` when the line contains a colon (split at the first
one), `none` when it does not (the Go code then sees one part). -/
def splitFirstColon : List Char → Option (List Char × List Char)
  | [] => none
  | c :: rest =>
    if c = ':' then some ([], rest)
    else (splitFirstColon rest).map (fun p => (c :: p.1, p.2))

/-- Go `strings.Join(parts, ", ")`. -/
def joinComma : List (List Char) → List Char
  | [] => []
  | [v] => v
  | v :: rest => v ++ ',' :: ' ' :: joinComma rest

/-- Tests whether `pat` is an initial segment of `l` (used to model
`strings.Index`). -/
def beginsWith : List Char → List Char → Bool
  | _, [] => true
  | [], _ :: _ => false
  | c :: l, p :: ps => c = p && beginsWith l ps

/-- Go `strings.Index(l, pat)`: index of the first occurrence of `pat`
in `l`, `none` for Go's `-1`. -/
def idxOf (l pat : List Char) : Option Nat :=
  match l with
  | [] => if beginsWith [] pat then some 0 else none
  | c :: rest =>
    if beginsWith (c :: rest) pat then some 0
    else (idxOf rest pat).map (· + 1)

/-! ## Header codec (`parseHeaders` and the header flatten in `saveReqBtn`) -/

/-- Go `textproto` valid header-field byte: a token character
(letters, digits, and the RFC 7230 token specials). -/
def validHeaderFieldChar (c : Char) : Bool :=
  ('0' ≤ c ∧ c ≤ '9') ∨ ('a' ≤ c ∧ c ≤ 'z') ∨ ('A' ≤ c ∧ c ≤ 'Z') ∨
  c = '!' ∨ c = '#' ∨ c = '$' ∨ c = '%' ∨ c = '&' ∨ c = Char.ofNat 39 ∨
  c = '*' ∨ c = '+' ∨ c = '-' ∨ c = '.' ∨ c = '^' ∨ c = '_' ∨
  c = Char.ofNat 96 ∨ c = '|' ∨ c = '~'

/-- ASCII upcase of one character (Go `c -= 'a' - 'A'`). -/
def upAscii (c : Char) : Char :=
  if 'a' ≤ c ∧ c ≤ 'z' then Char.ofNat (c.toNat - 32) else c

/-- ASCII downcase of one character (Go `c += 'a' - 'A'`). -/
def downAscii (c : Char) : Char :=
  if 'A' ≤ c ∧ c ≤ 'Z' then Char.ofNat (c.toNat + 32) else c

/-- The canonicalizing pass of Go `textproto.canonicalMIMEHeaderKey`:
upcase the first letter and every letter following a hyphen, downcase
every other letter; the flag carries "previous character was a hyphen
(or start)". -/
def canonGo : Bool → List Char → List Char
  | _, [] => []
  | upper, c :: rest =>
    let c2 := if upper then upAscii c else downAscii c
    c2 :: canonGo (c2 = '-') rest

/-- Go `textproto.CanonicalMIMEHeaderKey` (applied by `http.Header.Add`):
canonicalize when every character is a valid header-field byte,
otherwise return the key unchanged. -/
def canonicalMIMEHeaderKey (s : List Char) : List Char :=
  if s.all validHeaderFieldChar then canonGo true s else s

/-- One header entry: (canonical key, value).  `http.Header` is a Go map
from canonical key to the slice of added values; it is modelled as the
list of `Add`ed entries in order (within a key, this is exactly the Go
value slice; across keys the Go map is unordered and all theorems only
query it through `valuesOf`). -/
abbrev HeaderEntries := List (List Char × List Char)

/-- Go `http.Header.Add(k, v)`: canonicalize the key, append the value. -/
def headerAdd (h : HeaderEntries) (k v : List Char) : HeaderEntries :=
  h ++ [(canonicalMIMEHeaderKey k, v)]

/-- Go `parseHeaders` (src/unnamed/part_001 lines 75-88): split on
newlines, skip whitespace-only lines, split each remaining line at the
first colon (lines without a colon are dropped), trim key and value, and
`Add` the pair. -/
def parseHeaders (s : List Char) : HeaderEntries :=
  (goSplit '\n' s).foldl
    (fun h line =>
      if goTrimSpace line = [] then h
      else
        match splitFirstColon line with
        | none => h
        | some (pre, post) => headerAdd h (goTrimSpace pre) (goTrimSpace post))
    []

/-- The Go value slice `h[k]` of the header map. -/
def valuesOf (h : HeaderEntries) (k : List Char) : List (List Char) :=
  (h.filter (fun e => decide (e.1 = k))).map (·.2)

/-- The distinct keys of the header map, in first-`Add` order. -/
def keysOf (h : HeaderEntries) : List (List Char) := (h.map (·.1)).dedup

/-- The header flatten-and-reprint step (`saveReqBtn` lines 826-829
joins each key's values with `", "`; the load path then regenerates one
`"k: v\n"` line per key).  The Go map iterates its keys in unspecified
order, so the key order `ks` is a parameter. -/
def flattenLines (h : HeaderEntries) (ks : List (List Char)) : List Char :=
  (ks.map (fun k => k ++ ':' :: ' ' :: joinComma (valuesOf h k) ++ ['\n'])).flatten

/-- Header parsing as described by the (amended) specification, for the
refinement theorem of claim C8: split on newlines, skip blank lines,
split at the first colon, drop colonless lines, trim key and value,
canonicalize the key, one entry per line. -/
def parseHeadersSpec (s : List Char) : HeaderEntries :=
  (goSplit '\n' s).filterMap
    (fun line =>
      if goTrimSpace line = [] then none
      else
        match splitFirstColon line with
        | none => none
        | some (pre, post) =>
          some (canonicalMIMEHeaderKey (goTrimSpace pre), goTrimSpace post))

/-! ## Response search engine (search bar over the response body) -/

theorem beginsWith_length {l pat : List Char} (h : beginsWith l pat = true) :
    pat.length ≤ l.length := by
  induction pat generalizing l with
  | nil => simp
  | cons p ps ih =>
    cases l with
    | nil => simp [beginsWith] at h
    | cons c rest =>
      simp only [beginsWith, Bool.and_eq_true] at h
      simpa using ih h.2

theorem idxOf_some_le {l pat : List Char} {i : Nat}
    (h : idxOf l pat = some i) : i + pat.length ≤ l.length := by
  induction l generalizing i with
  | nil =>
    simp only [idxOf] at h
    split at h
    · rename_i hb
      cases h
      simpa using beginsWith_length hb
    · cases h
  | cons c rest ih =>
    simp only [idxOf] at h
    split at h
    · rename_i hb
      cases h
      simpa using beginsWith_length hb
    · rcases Option.map_eq_some'.mp h with ⟨j, hj, rfl⟩
      have := ih hj
      simp only [List.length_cons]
      omega

/-- The scanning loop of `highlightText` (src/unnamed/part_001 lines
183-191), with an explicit step bound: repeatedly `strings.Index` the
remaining (already lowercased) text for the (already lowercased) query,
record the absolute offset, resume immediately after the end of the
match. -/
def scanFromAux (fuel : Nat) (t q : List Char) (s : Nat) : List Nat :=
  match fuel with
  | 0 => []
  | fuel + 1 =>
    match idxOf (t.drop s) q with
    | none => []
    | some i => (s + i) :: scanFromAux fuel t q (s + i + q.length)

/-- The scanning loop with its step bound instantiated.  For a
non-empty query every step strictly advances the start position, so
`t.length + 1` steps always suffice; the Go loop has no bound and would
not terminate on the empty query, which `highlightText` rules out
before entering it. -/
def scanFrom (t q : List Char) (s : Nat) : List Nat :=
  scanFromAux (t.length + 1) t q s

/-- The match-offset computation of `highlightText`: lowercase text and
query, scan left to right without overlap.  This is the value stored in
the `searchResults` variable. -/
def scanMatches (text query : List Char) : List Nat :=
  scanFrom (text.map Char.toLower) (query.map Char.toLower) 0

/-- The annotation loop of `highlightText` (lines 195-210): walk the
match offsets left to right, wrap the current match in `【` `】` and every
other match in `〔` `〕`, keeping a cumulative `offset` for the inserted
marker characters. -/
def annotate (text query : List Char) (positions : List Nat)
    (currentIdx : Int) : List Char :=
  (positions.enum.foldl
    (fun acc ip =>
      let result := acc.1
      let offset := acc.2
      let start := ip.2 + offset
      let stop := start + query.length
      if stop ≤ result.length then
        let core := (result.drop start).take query.length
        let highlighted :=
          if (ip.1 : Int) = currentIdx then '【' :: core ++ ['】']
          else '〔' :: core ++ ['〕']
        (result.take start ++ highlighted ++ result.drop stop,
         offset + (highlighted.length - query.length))
      else acc)
    (text, 0)).1

/-- Go `highlightText(text, query, currentIdx)` (lines 175-212).  The Go
closure mutates the shared `searchResults` variable; here the new value
of `searchResults` is returned alongside the rendered text
(`oldResults` is returned unchanged on the empty-query early return,
which does not touch `searchResults`). -/
def highlightText (text query : List Char) (currentIdx : Int)
    (oldResults : List Nat) : List Char × List Nat :=
  if query = [] then (text, oldResults)
  else
    let results := scanMatches text query
    if results = [] then (text, results)
    else (annotate text query results currentIdx, results)

/-- The mutable search state of the UI closure set: the active query,
the match offsets, the current-match cursor, the captured original
(unannotated) text, and the displayed text (`jsonResponse.Text`). -/
structure SearchState where
  currentSearchQuery : List Char
  searchResults : List Nat
  currentMatchIndex : Int
  originalText : List Char
  displayed : List Char
deriving Repr, DecidableEq

/-- The initial state of the variables declared at lines 156-159. -/
def initSearchState : SearchState :=
  { currentSearchQuery := [], searchResults := [], currentMatchIndex := -1,
    originalText := [], displayed := [] }

/-- Go `navigateToMatch(matchIndex)` (lines 215-236): guard the index
against the current offset list, set the cursor, and when a capture and
a query are held re-render the annotated view (which recomputes
`searchResults` from `originalText`).  The cursor-scrolling statements
only touch UI widget fields and are not part of the tracked state. -/
def navigateToMatch (st : SearchState) (matchIndex : Int) : SearchState :=
  if st.searchResults = [] ∨ matchIndex < 0 ∨
      (st.searchResults.length : Int) ≤ matchIndex then st
  else
    let st := { st with currentMatchIndex := matchIndex }
    if st.originalText ≠ [] ∧ st.currentSearchQuery ≠ [] then
      let hr := highlightText st.originalText st.currentSearchQuery
        st.currentMatchIndex st.searchResults
      { st with displayed := hr.1, searchResults := hr.2 }
    else st

/-- Go `searchAction` (lines 239-271), with the raw search-entry text as
input. -/
def searchAction (st : SearchState) (raw : List Char) : SearchState :=
  let query := goTrimSpace raw
  if query = [] then
    let st :=
      if st.originalText ≠ [] then
        { st with displayed := st.originalText, originalText := [] }
      else st
    { st with currentSearchQuery := [], searchResults := [],
              currentMatchIndex := -1 }
  else if st.currentSearchQuery ≠ query then
    let st :=
      if st.originalText = [] then { st with originalText := st.displayed }
      else st
    let st := { st with currentSearchQuery := query }
    let hr := highlightText st.originalText query 0 st.searchResults
    let st := { st with searchResults := hr.2 }
    if st.searchResults ≠ [] then
      navigateToMatch { st with currentMatchIndex := 0 } 0
    else
      { st with displayed := st.originalText, currentMatchIndex := -1 }
  else if st.searchResults ≠ [] then
    navigateToMatch st
      ((st.currentMatchIndex + 1).tmod st.searchResults.length)
  else st

/-- Go `prevIcon.OnTapped` (lines 276-285). -/
def prevTapped (st : SearchState) : SearchState :=
  if st.searchResults = [] then st
  else
    let prevIdx := st.currentMatchIndex - 1
    let prevIdx :=
      if prevIdx < 0 then (st.searchResults.length : Int) - 1 else prevIdx
    navigateToMatch st prevIdx

/-- Go `nextIcon.OnTapped` (lines 286-292). -/
def nextTapped (st : SearchState) : SearchState :=
  if st.searchResults = [] then st
  else
    navigateToMatch st
      ((st.currentMatchIndex + 1).tmod st.searchResults.length)

/-- Go `clearIcon.OnTapped` (lines 293-303): clear the entry, restore
the original text, drop the capture and all match state. -/
def clearTapped (st : SearchState) : SearchState :=
  let st :=
    if st.originalText ≠ [] then
      { st with displayed := st.originalText, originalText := [] }
    else st
  { st with currentSearchQuery := [], searchResults := [],
            currentMatchIndex := -1 }

/-- Arrival of a new response (`sendBtn.OnTapped`, lines 748-765): the
response text (already pretty-printed when it is valid JSON) is
displayed and the whole search state is reset. -/
def newResponse (st : SearchState) (text : List Char) : SearchState :=
  { st with displayed := text, originalText := [], currentSearchQuery := [],
            searchResults := [], currentMatchIndex := -1 }

/-- Whitespace accepted between JSON tokens by the `encoding/json`
scanner: space, tab, newline, carriage return. -/
def goJsonSpace (c : Char) : Bool :=
  c = ' ' ∨ c = '\t' ∨ c = '\n' ∨ c = '\r'

/-- Decimal digit. -/
def isJDigit (c : Char) : Bool := '0' ≤ c ∧ c ≤ '9'

/-- Hexadecimal digit (for `\uXXXX` string escapes). -/
def isJHexDigit (c : Char) : Bool :=
  isJDigit c ∨ ('a' ≤ c ∧ c ≤ 'f') ∨ ('A' ≤ c ∧ c ≤ 'F')

/-- Scan a JSON string body after the opening quote: plain characters
(no raw control characters), the single-character escapes, and
`\uXXXX`; returns the remainder after the closing quote. -/
def parseJString : List Char → Option (List Char)
  | [] => none
  | c :: rest =>
    if c = Char.ofNat 34 then some rest
    else if c = '\\' then
      match rest with
      | [] => none
      | e :: rest2 =>
        if e = Char.ofNat 34 ∨ e = '\\' ∨ e = '/' ∨ e = 'b' ∨ e = 'f' ∨
            e = 'n' ∨ e = 'r' ∨ e = 't' then parseJString rest2
        else if e = 'u' then
          match rest2 with
          | h1 :: h2 :: h3 :: h4 :: rest3 =>
            if isJHexDigit h1 ∧ isJHexDigit h2 ∧ isJHexDigit h3 ∧
                isJHexDigit h4 then parseJString rest3
            else none
          | _ => none
        else none
    else if c.toNat < 32 then none
    else parseJString rest

/-- Scan the fraction part of a JSON number (optional `.digits`). -/
def parseJFrac : List Char → Option (List Char)
  | '.' :: rest =>
    match rest with
    | c :: _ => if isJDigit c then some (rest.dropWhile isJDigit) else none
    | [] => none
  | s => some s

/-- Scan the exponent part of a JSON number (optional
`e|E [+|-] digits`). -/
def parseJExp : List Char → Option (List Char)
  | [] => some []
  | c :: rest =>
    if c = 'e' ∨ c = 'E' then
      let rest2 :=
        match rest with
        | s2 :: r => if s2 = '+' ∨ s2 = '-' then r else s2 :: r
        | [] => []
      match rest2 with
      | d :: _ => if isJDigit d then some (rest2.dropWhile isJDigit) else none
      | [] => none
    else some (c :: rest)

/-- Scan a JSON number after an optional leading minus: `0` or a
nonzero-led digit run (no leading zeros), then fraction and exponent. -/
def parseJNumber (s : List Char) : Option (List Char) :=
  match s with
  | [] => none
  | c :: rest =>
    if c = '0' then
      match parseJFrac rest with
      | none => none
      | some s2 => parseJExp s2
    else if '1' ≤ c ∧ c ≤ '9' then
      match parseJFrac (rest.dropWhile isJDigit) with
      | none => none
      | some s2 => parseJExp s2
    else none

/-- The three scanning positions of the recursive-descent JSON
grammar. -/
inductive JScan where
  | value
  | members
  | elements
deriving Repr, DecidableEq

/-- Recursive descent over the JSON grammar of `encoding/json`
(value, object member list, array element list), with a step bound:
each recursive step first consumes at least one input character, so a
fuel proportional to the input length suffices. -/
def parseJ : Nat → JScan → List Char → Option (List Char)
  | 0, _, _ => none
  | fuel + 1, JScan.value, s =>
    match s.dropWhile goJsonSpace with
    | [] => none
    | c :: rest =>
      if c = Char.ofNat 34 then parseJString rest
      else if c = Char.ofNat 123 then
        match rest.dropWhile goJsonSpace with
        | c2 :: rest2 =>
          if c2 = Char.ofNat 125 then some rest2
          else parseJ fuel JScan.members (c2 :: rest2)
        | [] => none
      else if c = '[' then
        match rest.dropWhile goJsonSpace with
        | c2 :: rest2 =>
          if c2 = ']' then some rest2
          else parseJ fuel JScan.elements (c2 :: rest2)
        | [] => none
      else if c = 't' then
        if beginsWith rest ['r', 'u', 'e'] then some (rest.drop 3) else none
      else if c = 'f' then
        if beginsWith rest ['a', 'l', 's', 'e'] then some (rest.drop 4)
        else none
      else if c = 'n' then
        if beginsWith rest ['u', 'l', 'l'] then some (rest.drop 3) else none
      else if c = '-' then parseJNumber rest
      else if isJDigit c then parseJNumber (c :: rest)
      else none
  | fuel + 1, JScan.members, s =>
    match s.dropWhile goJsonSpace with
    | [] => none
    | c :: rest =>
      if c = Char.ofNat 34 then
        match parseJString rest with
        | none => none
        | some s2 =>
          match s2.dropWhile goJsonSpace with
          | ':' :: s3 =>
            match parseJ fuel JScan.value s3 with
            | none => none
            | some s4 =>
              match s4.dropWhile goJsonSpace with
              | ',' :: s5 => parseJ fuel JScan.members s5
              | c2 :: s5 => if c2 = Char.ofNat 125 then some s5 else none
              | [] => none
          | _ => none
      else none
  | fuel + 1, JScan.elements, s =>
    match parseJ fuel JScan.value s with
    | none => none
    | some s2 =>
      match s2.dropWhile goJsonSpace with
      | ',' :: s3 => parseJ fuel JScan.elements s3
      | ']' :: s3 => some s3
      | _ => none

/-- Whether `json.Unmarshal` accepts the text as a complete JSON value:
one value of the grammar followed by nothing but whitespace.  This is
the deterministic guard the `jsonataBtn` handler evaluates on the
captured-or-displayed text. -/
def goJsonValid (s : List Char) : Bool :=
  match parseJ (2 * s.length + 2) JScan.value s with
  | none => false
  | some rest => decide (rest.dropWhile goJsonSpace = [])

/-- Go `jsonataBtn` tap (lines 654-684): the handler returns without
touching search state when the expression is empty (`exprNonempty`),
when `json.Unmarshal` rejects the captured-or-displayed text (the
deterministic `goJsonValid` guard on the tracked state), or when
`jsonpath.Get` fails (`jsonpathOk`, a function of the user's expression
— the root expression `$` succeeds on any decoded document, so a `true`
value is reachable whenever the text is valid JSON).  On success the
handler writes the JSONata output to its own box and then sets
`originalText := jsonResponse.Text` (the currently displayed text) and
clears the query and match state. -/
def jsonataApply (st : SearchState) (exprNonempty jsonpathOk : Bool) :
    SearchState :=
  if exprNonempty = false then st
  else
    let jsonText := if st.originalText = [] then st.displayed
      else st.originalText
    if goJsonValid jsonText = false then st
    else if jsonpathOk = false then st
    else
      { st with originalText := st.displayed, currentSearchQuery := [],
                searchResults := [], currentMatchIndex := -1 }

/-- One user-visible operation of the search engine. -/
inductive SearchOp where
  | search (raw : List Char)
  | next
  | prev
  | clear
  | response (text : List Char)
  | jsonata (exprNonempty jsonpathOk : Bool)
deriving Repr, DecidableEq

/-- Apply one operation. -/
def searchStep (st : SearchState) : SearchOp → SearchState
  | .search raw => searchAction st raw
  | .next => nextTapped st
  | .prev => prevTapped st
  | .clear => clearTapped st
  | .response text => newResponse st text
  | .jsonata e j => jsonataApply st e j

/-- Run a sequence of operations from a state. -/
def runSearch (st : SearchState) (ops : List SearchOp) : SearchState :=
  ops.foldl searchStep st

/-! ## Data model: `APIRequest`, `Collection`, `Workspace`

Go `map[string]string` values are modelled as key-sorted, duplicate-free
association lists (the canonical representative of an unordered map). -/

structure APIRequest where
  name : String
  method : String
  url : String
  headers : List (String × String)
  body : String
deriving Repr, DecidableEq

structure Collection where
  name : String
  requests : List APIRequest
deriving Repr, DecidableEq

structure Workspace where
  name : String
  collections : List Collection
deriving Repr, DecidableEq

/-- Lexicographic order on rune sequences; on UTF-8 strings this agrees
with Go's byte-wise string order (UTF-8 preserves code-point order). -/
def charListLt : List Char → List Char → Bool
  | [], [] => false
  | [], _ :: _ => true
  | _ :: _, [] => false
  | a :: as, b :: bs => if a = b then charListLt as bs else decide (a < b)

/-- Go string order on keys (`sort` order of marshalled map keys). -/
def keyLt (a b : String) : Bool := charListLt a.data b.data

/-- Insert an entry into a key-sorted association list, before the first
strictly larger key. -/
def insertSorted (e : String × String) :
    List (String × String) → List (String × String)
  | [] => [e]
  | f :: rest =>
    if keyLt e.1 f.1 then e :: f :: rest else f :: insertSorted e rest

/-- Sort an association list by key (Go marshals map keys in sorted
order; this is also the canonical form of a Go map). -/
def sortHeaders (l : List (String × String)) : List (String × String) :=
  l.foldr insertSorted []

/-- Go map assignment `m[k] = v`: overwrite the entry for `k` if
present, otherwise add one. -/
def mapInsert (l : List (String × String)) (k v : String) :
    List (String × String) :=
  match l with
  | [] => [(k, v)]
  | e :: rest => if e.1 = k then (k, v) :: rest else e :: mapInsert rest k v

/-! ## JSON document model

`encoding/json` is external library code; it is modelled at the level of
the JSON document tree: marshalling produces a `Json` value (struct
fields in declaration order, map keys sorted) and unmarshalling reads
one with Go's tolerant policy (`null` leaves the target at its current
value, unknown object keys are ignored, field names match
case-insensitively, a type mismatch is an error). -/

inductive Json where
  | null
  | bool (b : Bool)
  | num (n : Int)
  | str (s : String)
  | arr (elems : List Json)
  | obj (fields : List (String × Json))
deriving Repr

/-- ASCII case folding of a field name (Go matches JSON object keys to
struct fields case-insensitively; all tags here are ASCII). -/
def eqFold (a b : String) : Bool :=
  a.data.map downAscii = b.data.map downAscii

/-- Marshal a header map: object with key-sorted string entries. -/
def encodeHeaders (h : List (String × String)) : Json :=
  .obj ((sortHeaders h).map (fun e => (e.1, Json.str e.2)))

/-- Marshal an `APIRequest` (json tags `name`, `method`, `url`,
`headers`, `body`, in declaration order). -/
def encodeRequest (r : APIRequest) : Json :=
  .obj [("name", .str r.name), ("method", .str r.method),
        ("url", .str r.url), ("headers", encodeHeaders r.headers),
        ("body", .str r.body)]

/-- Marshal a `Collection` (json tags `name`, `requests`). -/
def encodeCollection (c : Collection) : Json :=
  .obj [("name", .str c.name),
        ("requests", .arr (c.requests.map encodeRequest))]

/-- Marshal a `Workspace` (json tags `name`, `collections`). -/
def encodeWorkspace (w : Workspace) : Json :=
  .obj [("name", .str w.name),
        ("collections", .arr (w.collections.map encodeCollection))]

/-- Go `saveWorkspaces` (src/unnamed/part_001 lines 67-73):
`json.MarshalIndent` of the workspace list, modelled as the marshalled
document (indentation and byte serialization are presentation). -/
def saveWorkspaces (ws : List Workspace) : Json :=
  .arr (ws.map encodeWorkspace)

/-- Unmarshal into a string target: `null` keeps the current value. -/
def decodeString (cur : String) : Json → Except String String
  | .str s => .ok s
  | .null => .ok cur
  | _ => .error "cannot unmarshal into string"

/-- Unmarshal the entries of a JSON object into a string map
(later duplicate keys overwrite earlier ones). -/
def decodeHeadersLoop (acc : List (String × String)) :
    List (String × Json) → Except String (List (String × String))
  | [] => .ok acc
  | (k, j) :: rest => do
    let v ← decodeString "" j
    decodeHeadersLoop (mapInsert acc k v) rest

/-- Unmarshal into a `map[string]string` target: `null` keeps the
current map, an object is read entry by entry. -/
def decodeHeaders (cur : List (String × String)) :
    Json → Except String (List (String × String))
  | .null => .ok cur
  | .obj fields => (decodeHeadersLoop [] fields).map sortHeaders
  | _ => .error "cannot unmarshal into map"

/-- The zero `APIRequest`. -/
def emptyRequest : APIRequest := ⟨"", "", "", [], ""⟩

/-- Unmarshal the fields of a JSON object into an `APIRequest`, in
object order (case-insensitive tag match, unknown keys ignored). -/
def decodeRequestLoop (r : APIRequest) :
    List (String × Json) → Except String APIRequest
  | [] => .ok r
  | (k, j) :: rest => do
    let r ←
      if eqFold k "name" then do
        let v ← decodeString r.name j; pure { r with name := v }
      else if eqFold k "method" then do
        let v ← decodeString r.method j; pure { r with method := v }
      else if eqFold k "url" then do
        let v ← decodeString r.url j; pure { r with url := v }
      else if eqFold k "headers" then do
        let h ← decodeHeaders r.headers j; pure { r with headers := h }
      else if eqFold k "body" then do
        let v ← decodeString r.body j; pure { r with body := v }
      else pure r
    decodeRequestLoop r rest

/-- Unmarshal an `APIRequest` value. -/
def decodeRequest : Json → Except String APIRequest
  | .null => .ok emptyRequest
  | .obj fields => decodeRequestLoop emptyRequest fields
  | _ => .error "cannot unmarshal into APIRequest"

/-- Unmarshal into a `[]APIRequest` target. -/
def decodeRequestList (cur : List APIRequest) :
    Json → Except String (List APIRequest)
  | .null => .ok cur
  | .arr elems => elems.mapM decodeRequest
  | _ => .error "cannot unmarshal into request slice"

/-- The zero `Collection`. -/
def emptyCollection : Collection := ⟨"", []⟩

/-- Unmarshal the fields of a JSON object into a `Collection`. -/
def decodeCollectionLoop (c : Collection) :
    List (String × Json) → Except String Collection
  | [] => .ok c
  | (k, j) :: rest => do
    let c ←
      if eqFold k "name" then do
        let v ← decodeString c.name j; pure { c with name := v }
      else if eqFold k "requests" then do
        let v ← decodeRequestList c.requests j; pure { c with requests := v }
      else pure c
    decodeCollectionLoop c rest

/-- Unmarshal a `Collection` value. -/
def decodeCollection : Json → Except String Collection
  | .null => .ok emptyCollection
  | .obj fields => decodeCollectionLoop emptyCollection fields
  | _ => .error "cannot unmarshal into Collection"

/-- Unmarshal into a `[]Collection` target. -/
def decodeCollectionList (cur : List Collection) :
    Json → Except String (List Collection)
  | .null => .ok cur
  | .arr elems => elems.mapM decodeCollection
  | _ => .error "cannot unmarshal into collection slice"

/-- The zero `Workspace`. -/
def emptyWorkspace : Workspace := ⟨"", []⟩

/-- Unmarshal the fields of a JSON object into a `Workspace`. -/
def decodeWorkspaceLoop (w : Workspace) :
    List (String × Json) → Except String Workspace
  | [] => .ok w
  | (k, j) :: rest => do
    let w ←
      if eqFold k "name" then do
        let v ← decodeString w.name j; pure { w with name := v }
      else if eqFold k "collections" then do
        let v ← decodeCollectionList w.collections j
        pure { w with collections := v }
      else pure w
    decodeWorkspaceLoop w rest

/-- Unmarshal a `Workspace` value. -/
def decodeWorkspace : Json → Except String Workspace
  | .null => .ok emptyWorkspace
  | .obj fields => decodeWorkspaceLoop emptyWorkspace fields
  | _ => .error "cannot unmarshal into Workspace"

/-- Unmarshal the persisted document into `[]Workspace`. -/
def decodeWorkspaceList : Json → Except String (List Workspace)
  | .null => .ok []
  | .arr elems => elems.mapM decodeWorkspace
  | _ => .error "cannot unmarshal into workspace slice"

/-- The three relevant states of the persistence file. -/
inductive FileContent where
  | absent
  | malformed
  | wellFormed (doc : Json)

/-- Go `loadWorkspaces` (src/unnamed/part_001 lines 53-65): a
non-existent file yields the empty list without error; otherwise the
bytes are unmarshalled — a JSON syntax error (`malformed`) or a shape
mismatch surfaces as the returned error. -/
def loadWorkspaces : FileContent → Except String (List Workspace)
  | .absent => .ok []
  | .malformed => .error "invalid JSON"
  | .wellFormed doc => decodeWorkspaceList doc

/-! ## Workspace store operations -/

/-- The `for i, ws := range workspaces { if ws.Name == sel { wsIdx = i;
break } }` lookup used by `saveReqBtn`, `editRequestName` and
`deleteRequest`: index of the first workspace with the given name. -/
def firstMatchIdx : List Workspace → String → Option Nat
  | [], _ => none
  | ws :: rest, sel =>
    if ws.name = sel then some 0 else (firstMatchIdx rest sel).map (· + 1)

/-- The `for i, ws := range workspaces { if ws.Name == sel { ...append
col... } }` loop (no `break`) of `createNewCollection` and
`importPostmanJSON`: append the collection to every workspace whose name
matches. -/
def appendColAll (sel : String) (col : Collection) :
    List Workspace → List Workspace
  | [] => []
  | ws :: rest =>
    (if ws.name = sel then { ws with collections := ws.collections ++ [col] }
     else ws) :: appendColAll sel col rest

/-- Go `createNewCollection` (src/unnamed/part_001 lines 381-412):
guard the workspace selection, guard the dialog result (`ok` and a
non-empty name), then run the no-`break` append loop. -/
def createNewCollection (workspaces : List Workspace) (selected : String)
    (ok : Bool) (colName : String) : List Workspace :=
  if selected = "" ∨ selected = "+ New Workspace" then workspaces
  else if ok = false ∨ colName = "" then workspaces
  else appendColAll selected ⟨colName, []⟩ workspaces

/-- One entry of a Postman v2.1 `request.header` array. -/
structure PostmanHeader where
  key : String
  value : String
deriving Repr, DecidableEq

/-- The dynamically typed Postman `url` field: a JSON string, a JSON
object (with or without a string `raw` member), or any other shape. -/
inductive PostmanURL where
  | str (s : String)
  | objRaw (raw : Option String)
  | other
deriving Repr, DecidableEq

/-- One entry of a Postman v2.1 `item` array. -/
structure PostmanItem where
  name : String
  method : String
  url : PostmanURL
  header : List PostmanHeader
  bodyRaw : String
deriving Repr, DecidableEq

/-- A decoded Postman v2.1 collection document. -/
structure PostmanDoc where
  infoName : String
  item : List PostmanItem
deriving Repr, DecidableEq

/-- The `switch v := item.Request.URL.(type)` of `importPostmanJSON`:
string as-is, object's string `raw` member, empty string otherwise. -/
def urlOf : PostmanURL → String
  | .str s => s
  | .objRaw (some r) => r
  | .objRaw none => ""
  | .other => ""

/-- The `headers[h.Key] = h.Value` loop of `importPostmanJSON`: build a
string map, later duplicates overwriting earlier ones. -/
def importHeaders (hs : List PostmanHeader) : List (String × String) :=
  sortHeaders (hs.foldl (fun m h => mapInsert m h.key h.value) [])

/-- The collection built by `importPostmanJSON` from a decoded Postman
document. -/
def importedCollection (doc : PostmanDoc) : Collection :=
  ⟨doc.infoName,
   doc.item.map (fun it =>
     ⟨it.name, it.method, urlOf it.url, importHeaders it.header,
      it.bodyRaw⟩)⟩

/-- Go `importPostmanJSON` (src/unnamed/part_001 lines 892-964) after a
successful file read and unmarshal: guard the selection, then run the
no-`break` loop appending the imported collection to every matching
workspace. -/
def importPostmanJSON (workspaces : List Workspace) (selected : String)
    (doc : PostmanDoc) : List Workspace :=
  if selected = "" then workspaces
  else appendColAll selected (importedCollection doc) workspaces

/-- The `headersMap` flatten of `saveReqBtn` (lines 826-829): one entry
per distinct key of the parsed header block, its values joined with
`", "` (canonical map representation: key-sorted). -/
def flattenHeaderMap (h : HeaderEntries) : List (String × String) :=
  sortHeaders ((keysOf h).map (fun k =>
    (String.mk k, String.mk (joinComma (valuesOf h k)))))

/-- The `APIRequest` literal built by `saveReqBtn` (lines 830-836): the
name and the url are both the URL entry's text. -/
def buildSavedRequest (urlText method : String) (headersText : List Char)
    (bodyText : String) : APIRequest :=
  ⟨urlText, method, urlText, flattenHeaderMap (parseHeaders headersText),
   bodyText⟩

/-- Go `saveReqBtn.OnTapped` (lines 800-845) restricted to the store
mutation: guard the selections, look up the first matching workspace,
guard the collection index, append the built request. -/
def saveRequest (workspaces : List Workspace) (selected : String)
    (selectedCollectionIdx : Int) (urlText method : String)
    (headersText : List Char) (bodyText : String) : List Workspace :=
  if selected = "" ∨ selected = "+ New Workspace" then workspaces
  else if selectedCollectionIdx < 0 then workspaces
  else
    match firstMatchIdx workspaces selected with
    | none => workspaces
    | some wsIdx =>
      let ws := workspaces.getD wsIdx emptyWorkspace
      if (ws.collections.length : Int) ≤ selectedCollectionIdx then
        workspaces
      else
        let colIdx := selectedCollectionIdx.toNat
        let coll := ws.collections.getD colIdx emptyCollection
        let coll2 :=
          { coll with requests := coll.requests ++
              [buildSavedRequest urlText method headersText bodyText] }
        workspaces.set wsIdx
          { ws with collections := ws.collections.set colIdx coll2 }

/-- Go slice indexing `xs[i]`: `none` models the runtime panic on a
negative or too-large index. -/
def goGet {α : Type} (xs : List α) (i : Int) : Option α :=
  if i < 0 then none else xs.get? i.toNat

/-- The request list the index-addressed mutators operate on, `none`
when one of their selection guards fails. -/
def requestsAt (workspaces : List Workspace) (selected : String)
    (selectedCollectionIdx : Int) : Option (List APIRequest) :=
  if selected = "" ∨ selected = "+ New Workspace" ∨
      selectedCollectionIdx < 0 then none
  else
    match firstMatchIdx workspaces selected with
    | none => none
    | some wsIdx =>
      let ws := workspaces.getD wsIdx emptyWorkspace
      if (ws.collections.length : Int) ≤ selectedCollectionIdx then none
      else
        some ((ws.collections.getD selectedCollectionIdx.toNat
          emptyCollection).requests)

/-- Go `deleteRequest(reqIdx)` (src/unnamed/part_001 lines 452-485).
The result is `none` when the Go code panics (it reads
`coll.Requests[reqIdx].Name` after guarding only `reqIdx >=
len(coll.Requests)`, so a negative index panics); otherwise `some` of
the workspace list after the confirm dialog (`confirmed`). -/
def deleteRequest (workspaces : List Workspace) (selected : String)
    (selectedCollectionIdx : Int) (reqIdx : Int) (confirmed : Bool) :
    Option (List Workspace) :=
  if selected = "" ∨ selected = "+ New Workspace" ∨
      selectedCollectionIdx < 0 then some workspaces
  else
    match firstMatchIdx workspaces selected with
    | none => some workspaces
    | some wsIdx =>
      let ws := workspaces.getD wsIdx emptyWorkspace
      if (ws.collections.length : Int) ≤ selectedCollectionIdx then
        some workspaces
      else
        let colIdx := selectedCollectionIdx.toNat
        let coll := ws.collections.getD colIdx emptyCollection
        if (coll.requests.length : Int) ≤ reqIdx then some workspaces
        else
          match goGet coll.requests reqIdx with
          | none => none
          | some _ =>
            if confirmed then
              let coll2 :=
                { coll with requests :=
                    coll.requests.take reqIdx.toNat ++
                    coll.requests.drop (reqIdx.toNat + 1) }
              some (workspaces.set wsIdx
                { ws with collections := ws.collections.set colIdx coll2 })
            else some workspaces

/-- Go `editRequestName(reqIdx)` (src/unnamed/part_001 lines 415-450).
Same guard structure as `deleteRequest` (again only `reqIdx >= len` is
guarded, so a negative index panics reading the current name, modelled
as `none`); `ok`/`newName` are the dialog result. -/
def editRequestName (workspaces : List Workspace) (selected : String)
    (selectedCollectionIdx : Int) (reqIdx : Int) (ok : Bool)
    (newName : String) : Option (List Workspace) :=
  if selected = "" ∨ selected = "+ New Workspace" ∨
      selectedCollectionIdx < 0 then some workspaces
  else
    match firstMatchIdx workspaces selected with
    | none => some workspaces
    | some wsIdx =>
      let ws := workspaces.getD wsIdx emptyWorkspace
      if (ws.collections.length : Int) ≤ selectedCollectionIdx then
        some workspaces
      else
        let colIdx := selectedCollectionIdx.toNat
        let coll := ws.collections.getD colIdx emptyCollection
        if (coll.requests.length : Int) ≤ reqIdx then some workspaces
        else
          match goGet coll.requests reqIdx with
          | none => none
          | some req =>
            if ok = false ∨ newName = "" then some workspaces
            else
              let req2 := { req with name := newName }
              let coll2 :=
                { coll with requests := coll.requests.set reqIdx.toNat req2 }
              some (workspaces.set wsIdx
                { ws with collections := ws.collections.set colIdx coll2 })

/-! ## Request executor (body/size handling of `sendBtn.OnTapped`) -/

/-- The UTF-8 byte length of a text (Go `len([]byte(body))`). -/
def utf8Length (s : List Char) : Nat :=
  s.foldl (fun n c => n + c.utf8Size) 0

/-- The body/size branch of `sendBtn.OnTapped` (src/unnamed/part_001
lines 695-702): for GET/DELETE/HEAD/OPTIONS the request is built with
`nil` body (`none`) and `reqSize = 0`; for every other method the body
bytes are attached and `reqSize` is their length. -/
def sendPrepare (method : String) (body : List Char) :
    Option (List Char) × Nat :=
  if method = "GET" ∨ method = "DELETE" ∨ method = "HEAD" ∨
      method = "OPTIONS" then (none, 0)
  else (some body, utf8Length body)

/-! ## Claim C1 -/

/-- The operation sequence that breaks the search-offset invariant: a
response `aa` arrives, it is searched for `aa` (annotating the display),
a JSONata expression is applied successfully, and a new query `a` is
entered. -/
def c1Trace : List SearchOp :=
  [SearchOp.response ['1', '1'], SearchOp.search ['1'],
   SearchOp.jsonata true true, SearchOp.search ['1']]

/-- Claim C1 (code bug): after "new response `11` (a valid JSON
number); search `1` (the display becomes the annotated `【1】〔1〕`);
JSONata apply with a non-empty expression such as `$` (the
`json.Unmarshal` guard passes deterministically — `goJsonValid` accepts
the captured `11` — and `$` is an expression `jsonpath.Get` accepts on
any document); search `1` again", the captured `originalText` is the
annotated string `【1】〔1〕` (it contains a marker character), and the
match-offset list `[1, 4]` was computed by scanning that annotated
string — not the unannotated response `11`, whose offsets for `1` are
`[0, 1]`.  The JSONata handler recaptures `originalText` from the
displayed (annotated) text, violating the invariant the claim
states. -/
theorem c1_searchResults_computed_against_annotated_capture :
    goJsonValid ['1', '1'] = true ∧
    (runSearch initSearchState c1Trace).originalText =
      ['【', '1', '】', '〔', '1', '〕'] ∧
    '【' ∈ (runSearch initSearchState c1Trace).originalText ∧
    (runSearch initSearchState c1Trace).searchResults =
      scanMatches (runSearch initSearchState c1Trace).originalText ['1'] ∧
    (runSearch initSearchState c1Trace).searchResults ≠
      scanMatches ['1', '1'] ['1'] := by decide

/-! ## Claim C5 (counterexample half) -/

/-- Two workspaces with the same name. -/
def dupStore : List Workspace := [⟨"W", []⟩, ⟨"W", []⟩]

/-- Claim C5 is false as stated: with two workspaces named `W`,
`createNewCollection` (whose lookup loop has no `break`) appends the
new collection to BOTH, not only to the first; the first-match-only
result the claim predicts is not what the code produces. -/
theorem c5_createNewCollection_affects_all_duplicates :
    createNewCollection dupStore "W" true "C" =
      [⟨"W", [⟨"C", []⟩]⟩, ⟨"W", [⟨"C", []⟩]⟩] ∧
    createNewCollection dupStore "W" true "C" ≠
      [⟨"W", [⟨"C", []⟩]⟩, ⟨"W", []⟩] ∧
    importPostmanJSON dupStore "W" ⟨"P", []⟩ =
      [⟨"W", [⟨"P", []⟩]⟩, ⟨"W", [⟨"P", []⟩]⟩] := by decide

/-! ## Claim C6 (counterexample half) -/

/-- A store with one workspace, one collection, one request. -/
def oneReqStore : List Workspace :=
  [⟨"W", [⟨"C", [⟨"r", "GET", "u", [], ""⟩]⟩]⟩]

/-- Claim C6 is false for negative indices: the Go guards only check
`reqIdx >= len(coll.Requests)`, so index `-1` reaches the slice access
`coll.Requests[reqIdx]` and panics (modelled as `none`) instead of being
a no-op. -/
theorem c6_negative_index_panics :
    deleteRequest oneReqStore "W" 0 (-1) true = none ∧
    editRequestName oneReqStore "W" 0 (-1) true "n" = none := by decide

/-! ## Claim C7 -/

/-- Claim C7: for GET/DELETE/HEAD/OPTIONS the outgoing request carries
no body (`none`, not an empty body) and `reqSize = 0`, whatever the UI
body field holds; for every other method the body is attached (even
when empty) and `reqSize` is its byte length. -/
theorem c7_body_omission_policy (method : String) (body : List Char) :
    ((method = "GET" ∨ method = "DELETE" ∨ method = "HEAD" ∨
        method = "OPTIONS") →
      sendPrepare method body = (none, 0)) ∧
    (¬(method = "GET" ∨ method = "DELETE" ∨ method = "HEAD" ∨
        method = "OPTIONS") →
      sendPrepare method body = (some body, utf8Length body)) := by
  refine ⟨fun h => ?_, fun h => ?_⟩
  · simp only [sendPrepare, if_pos h]
  · simp only [sendPrepare, if_neg h]

/-- Witness for C7 at `GET` (non-empty body field) and `POST`. -/
theorem c7_body_omission_policy_witness :
    sendPrepare "GET" ['x'] = (none, 0) ∧
    sendPrepare "POST" ['x'] = (some ['x'], utf8Length ['x']) :=
  ⟨(c7_body_omission_policy "GET" ['x']).1 (Or.inl rfl),
   (c7_body_omission_policy "POST" ['x']).2 (by decide)⟩

/-! ## Claim C8 (counterexample half) -/

/-- Claim C8 is false as stated: `parseHeaders` uses `http.Header.Add`,
which canonicalizes the MIME key, so the key `content-type` is stored as
`Content-Type` — the key is changed beyond whitespace trimming. -/
theorem c8_key_is_canonicalized :
    parseHeaders "content-type: x".data =
      [("Content-Type".data, "x".data)] ∧
    parseHeaders "content-type: x".data ≠
      [("content-type".data, "x".data)] := by decide

/-! ## Claim C9 -/

/-- Claim C9: a non-existent persistence file yields the empty
workspace list without error; `loadWorkspaces` can fail only when the
file exists (its content is then malformed JSON or fails to decode as a
workspace list). -/
theorem c9_load_missing_file_policy :
    loadWorkspaces FileContent.absent = Except.ok [] ∧
    (∀ fc : FileContent, (loadWorkspaces fc).isOk = false →
      fc ≠ FileContent.absent) ∧
    (loadWorkspaces FileContent.malformed).isOk = false := by
  refine ⟨rfl, ?_, rfl⟩
  intro fc h hcontra
  subst hcontra
  simp [loadWorkspaces, Except.isOk, Except.toBool] at h

/-- Witness for C9 at the malformed-file input. -/
theorem c9_load_missing_file_policy_witness :
    (loadWorkspaces FileContent.malformed).isOk = false ∧
    FileContent.malformed ≠ FileContent.absent :=
  ⟨rfl, c9_load_missing_file_policy.2.1 FileContent.malformed rfl⟩

/-! ## Claim C10 -/

/-- Claim C10: the request `saveReqBtn` constructs (and appends via
`saveRequest`) takes its name from the URL entry — name and url are the
same string, and no separate name input exists. -/
theorem c10_saved_request_named_by_url (urlText method : String)
    (headersText : List Char) (bodyText : String) :
    (buildSavedRequest urlText method headersText bodyText).name =
      (buildSavedRequest urlText method headersText bodyText).url ∧
    (buildSavedRequest urlText method headersText bodyText).name =
      urlText :=
  ⟨rfl, rfl⟩

/-! ## Claim C2: the scan loop -/

theorem idxOf_begins {l pat : List Char} {i : Nat}
    (h : idxOf l pat = some i) : beginsWith (l.drop i) pat = true := by
  induction l generalizing i with
  | nil =>
    simp only [idxOf] at h
    split at h
    · rename_i hb; cases h; simpa using hb
    · cases h
  | cons c rest ih =>
    simp only [idxOf] at h
    split at h
    · rename_i hb; cases h; simpa using hb
    · rcases Option.map_eq_some'.mp h with ⟨j, hj, rfl⟩
      simpa [List.drop] using ih hj

theorem idxOf_min {l pat : List Char} {i : Nat}
    (h : idxOf l pat = some i) :
    ∀ j, beginsWith (l.drop j) pat = true → i ≤ j := by
  induction l generalizing i with
  | nil =>
    intro j _
    simp only [idxOf] at h
    split at h
    · cases h; exact Nat.zero_le j
    · cases h
  | cons c rest ih =>
    intro j hj
    simp only [idxOf] at h
    split at h
    · cases h; exact Nat.zero_le j
    · rename_i hb
      rcases Option.map_eq_some'.mp h with ⟨i', hi', rfl⟩
      cases j with
      | zero => exact absurd (by simpa using hj) hb
      | succ j' =>
        have := ih hi' j' (by simpa [List.drop] using hj)
        omega

theorem idxOf_none {l pat : List Char} (h : idxOf l pat = none) :
    ∀ j, ¬ beginsWith (l.drop j) pat = true := by
  induction l with
  | nil =>
    intro j hj
    simp only [idxOf] at h
    split at h
    · cases h
    · rename_i hb
      exact hb (by simpa using hj)
  | cons c rest ih =>
    intro j hj
    simp only [idxOf] at h
    split at h
    · cases h
    · rename_i hb
      rcases Option.map_eq_none'.mp h with hnone
      cases j with
      | zero => exact hb (by simpa using hj)
      | succ j' => exact ih hnone j' (by simpa [List.drop] using hj)

theorem scanFromAux_sound (q : List Char) :
    ∀ fuel t s p, p ∈ scanFromAux fuel t q s →
      s ≤ p ∧ beginsWith (t.drop p) q = true := by
  intro fuel
  induction fuel with
  | zero => simp [scanFromAux]
  | succ fuel ih =>
    intro t s p hp
    simp only [scanFromAux] at hp
    cases hidx : idxOf (t.drop s) q with
    | none => rw [hidx] at hp; simp at hp
    | some i =>
      rw [hidx] at hp
      rcases List.mem_cons.mp hp with rfl | hp
      · refine ⟨Nat.le_add_right _ _, ?_⟩
        have hb := idxOf_begins hidx
        rw [List.drop_drop] at hb
        exact hb
      · have h2 := ih t _ p hp
        exact ⟨by omega, h2.2⟩

theorem scanFromAux_chain (q : List Char) :
    ∀ fuel t s,
      List.Chain' (fun a b => a + q.length ≤ b) (scanFromAux fuel t q s) := by
  intro fuel
  induction fuel with
  | zero => simp [scanFromAux]
  | succ fuel ih =>
    intro t s
    simp only [scanFromAux]
    cases hidx : idxOf (t.drop s) q with
    | none => simp
    | some i =>
      refine List.chain'_cons'.mpr ⟨?_, ih t _⟩
      intro b hb
      have hmem := List.mem_of_mem_head? hb
      have := (scanFromAux_sound q fuel t _ b hmem).1
      omega

theorem scanFromAux_complete (q : List Char) (hq : q ≠ []) :
    ∀ fuel t s p, t.length + 1 ≤ fuel + s → s ≤ p →
      beginsWith (t.drop p) q = true →
      ∃ o ∈ scanFromAux fuel t q s, o ≤ p ∧ p < o + q.length := by
  intro fuel
  induction fuel with
  | zero =>
    intro t s p hfuel hsp hocc
    exfalso
    have h1 := beginsWith_length hocc
    have h2 : 0 < q.length := List.length_pos.mpr hq
    simp only [List.length_drop] at h1
    omega
  | succ fuel ih =>
    intro t s p hfuel hsp hocc
    simp only [scanFromAux]
    cases hidx : idxOf (t.drop s) q with
    | none =>
      exfalso
      have hb : beginsWith ((t.drop s).drop (p - s)) q = true := by
        have hd : (t.drop s).drop (p - s) = t.drop p := by
          rw [List.drop_drop]
          congr 1
          omega
        rw [hd]; exact hocc
      exact idxOf_none hidx (p - s) hb
    | some i =>
      have hmin : i ≤ p - s := by
        refine idxOf_min hidx (p - s) ?_
        have hd : (t.drop s).drop (p - s) = t.drop p := by
          rw [List.drop_drop]
          congr 1
          omega
        rw [hd]; exact hocc
      have hip : s + i ≤ p := by omega
      by_cases hcase : p < s + i + q.length
      · exact ⟨s + i, List.mem_cons_self _ _, hip, hcase⟩
      · have hlen := idxOf_some_le hidx
        simp only [List.length_drop] at hlen
        have h2 : 0 < q.length := List.length_pos.mpr hq
        obtain ⟨o, ho, h3, h4⟩ :=
          ih t (s + i + q.length) p (by omega) (by omega) hocc
        exact ⟨o, List.mem_cons_of_mem _ ho, h3, h4⟩

/-- Claim C2: the search engine's match offsets are a case-insensitive,
left-to-right, non-overlapping substring scan — every reported offset is
a case-insensitive occurrence; consecutive reported offsets are at least
a whole query apart (the scan resumes after the end of the previous
match); every case-insensitive occurrence overlaps a reported one (none
is skipped); and concretely `aa` in `aaaa` yields `[0, 2]`, not
`[0, 1, 2]`. -/
theorem c2_scan_nonoverlapping :
    (∀ t q : List Char, q ≠ [] →
      (∀ p ∈ scanMatches t q,
        beginsWith ((t.map Char.toLower).drop p)
          (q.map Char.toLower) = true) ∧
      List.Chain' (fun a b => a + q.length ≤ b) (scanMatches t q) ∧
      (∀ p, beginsWith ((t.map Char.toLower).drop p)
          (q.map Char.toLower) = true →
        ∃ o ∈ scanMatches t q, o ≤ p ∧ p < o + q.length)) ∧
    scanMatches ['a', 'a', 'a', 'a'] ['a', 'a'] = [0, 2] ∧
    scanMatches ['a', 'a', 'a', 'a'] ['a', 'a'] ≠ [0, 1, 2] := by
  refine ⟨fun t q hq => ?_, by decide, by decide⟩
  have hql : (q.map Char.toLower).length = q.length := List.length_map _ _
  refine ⟨?_, ?_, ?_⟩
  · intro p hp
    exact (scanFromAux_sound _ _ _ _ _ hp).2
  · have hc := scanFromAux_chain (q.map Char.toLower)
      ((t.map Char.toLower).length + 1) (t.map Char.toLower) 0
    simpa [scanMatches, scanFrom, hql] using hc
  · intro p hocc
    have hq' : q.map Char.toLower ≠ [] := by simpa using hq
    have hcomp := scanFromAux_complete _ hq'
      ((t.map Char.toLower).length + 1) (t.map Char.toLower) 0 p
      (by omega) (Nat.zero_le _) hocc
    simpa [scanMatches, scanFrom, hql] using hcomp

/-- Witness for C2 at text `ab`, query `a`. -/
theorem c2_scan_nonoverlapping_witness :
    (['a'] : List Char) ≠ [] ∧
    ((∀ p ∈ scanMatches ['a', 'b'] ['a'],
        beginsWith ((['a', 'b'].map Char.toLower).drop p)
          (['a'].map Char.toLower) = true) ∧
      List.Chain' (fun a b => a + (['a'] : List Char).length ≤ b)
        (scanMatches ['a', 'b'] ['a']) ∧
      (∀ p, beginsWith ((['a', 'b'].map Char.toLower).drop p)
          (['a'].map Char.toLower) = true →
        ∃ o ∈ scanMatches ['a', 'b'] ['a'],
          o ≤ p ∧ p < o + (['a'] : List Char).length)) :=
  ⟨by decide, c2_scan_nonoverlapping.1 ['a', 'b'] ['a'] (by decide)⟩

/-! ## Claim C5 (amended half) -/

theorem appendColAll_eq_map (sel : String) (col : Collection)
    (ws : List Workspace) :
    appendColAll sel col ws = ws.map (fun w =>
      if w.name = sel then
        { w with collections := w.collections ++ [col] }
      else w) := by
  induction ws with
  | nil => rfl
  | cons w rest ih => simp only [appendColAll, List.map_cons, ih]

/-- Claim C5 amended: saving a request affects only the first workspace
whose name matches (all other positions are untouched), while adding a
collection and importing a Postman collection append to EVERY workspace
whose name matches, not only the first. -/
theorem c5_name_lookup_semantics :
    (∀ (ws : List Workspace) (sel : String) (ok : Bool) (colName : String),
      createNewCollection ws sel ok colName =
        if sel = "" ∨ sel = "+ New Workspace" ∨ ok = false ∨ colName = ""
        then ws
        else ws.map (fun w =>
          if w.name = sel then
            { w with collections := w.collections ++ [⟨colName, []⟩] }
          else w)) ∧
    (∀ (ws : List Workspace) (sel : String) (doc : PostmanDoc),
      importPostmanJSON ws sel doc =
        if sel = "" then ws
        else ws.map (fun w =>
          if w.name = sel then
            { w with collections :=
                w.collections ++ [importedCollection doc] }
          else w)) ∧
    (∀ (ws : List Workspace) (sel : String) (ci : Int)
        (u m : String) (ht : List Char) (b : String) (j : Nat),
      some j ≠ firstMatchIdx ws sel →
      (saveRequest ws sel ci u m ht b).get? j = ws.get? j) := by
  refine ⟨fun ws sel ok colName => ?_, fun ws sel doc => ?_,
    fun ws sel ci u m ht b j hj => ?_⟩
  · simp only [createNewCollection]
    by_cases h1 : sel = "" ∨ sel = "+ New Workspace"
    · rw [if_pos h1, if_pos (by tauto)]
    · by_cases h2 : ok = false ∨ colName = ""
      · rw [if_neg h1, if_pos h2, if_pos (by tauto)]
      · rw [if_neg h1, if_neg h2, if_neg (by tauto), appendColAll_eq_map]
  · simp only [importPostmanJSON]
    by_cases h1 : sel = ""
    · rw [if_pos h1, if_pos h1]
    · rw [if_neg h1, if_neg h1, appendColAll_eq_map]
  · cases hidx : firstMatchIdx ws sel with
    | none => simp [saveRequest, hidx]
    | some wsIdx =>
      simp only [saveRequest, hidx]
      by_cases h1 : sel = "" ∨ sel = "+ New Workspace"
      · rw [if_pos h1]
      · rw [if_neg h1]
        by_cases h2 : ci < 0
        · rw [if_pos h2]
        · rw [if_neg h2]
          by_cases h3 :
              ((ws.getD wsIdx emptyWorkspace).collections.length : Int) ≤ ci
          · rw [if_pos h3]
          · rw [if_neg h3]
            refine List.get?_set_ne _ _ (fun hc => ?_)
            rw [hidx] at hj
            exact hj (by rw [hc])

/-- Witness for C5's third conjunct at a concrete store and index. -/
theorem c5_name_lookup_semantics_witness :
    (saveRequest [⟨"V", []⟩, ⟨"W", [⟨"C", []⟩]⟩] "W" 0 "u" "GET" [] "b").get? 0
      = ([⟨"V", []⟩, ⟨"W", [⟨"C", []⟩]⟩] : List Workspace).get? 0 :=
  c5_name_lookup_semantics.2.2 [⟨"V", []⟩, ⟨"W", [⟨"C", []⟩]⟩] "W" 0
    "u" "GET" [] "b" 0 (by decide)

/-! ## Claim C6 (amended half) -/

/-- Claim C6 amended: a non-negative out-of-range request index (at or
beyond the length of the addressed request list, or with any selection
guard failing) makes `deleteRequest` and `editRequestName` no-ops that
never panic; negative indices are excluded, since they reach the slice
access and panic (see the counterexample). -/
theorem c6_high_index_mutators_noop (ws : List Workspace) (sel : String)
    (ci reqIdx : Int) (confirmed ok : Bool) (newName : String)
    (h : ∀ reqs, requestsAt ws sel ci = some reqs →
      (reqs.length : Int) ≤ reqIdx) :
    deleteRequest ws sel ci reqIdx confirmed = some ws ∧
    editRequestName ws sel ci reqIdx ok newName = some ws := by
  constructor
  · cases hidx : firstMatchIdx ws sel with
    | none => simp [deleteRequest, hidx]
    | some wsIdx =>
      simp only [deleteRequest, hidx]
      by_cases hg : sel = "" ∨ sel = "+ New Workspace" ∨ ci < 0
      · rw [if_pos hg]
      · rw [if_neg hg]
        by_cases hlen :
            ((ws.getD wsIdx emptyWorkspace).collections.length : Int) ≤ ci
        · rw [if_pos hlen]
        · rw [if_neg hlen]
          rw [if_pos]
          refine h _ ?_
          simp only [requestsAt, hidx]
          rw [if_neg hg, if_neg hlen]
  · cases hidx : firstMatchIdx ws sel with
    | none => simp [editRequestName, hidx]
    | some wsIdx =>
      simp only [editRequestName, hidx]
      by_cases hg : sel = "" ∨ sel = "+ New Workspace" ∨ ci < 0
      · rw [if_pos hg]
      · rw [if_neg hg]
        by_cases hlen :
            ((ws.getD wsIdx emptyWorkspace).collections.length : Int) ≤ ci
        · rw [if_pos hlen]
        · rw [if_neg hlen]
          rw [if_pos]
          refine h _ ?_
          simp only [requestsAt, hidx]
          rw [if_neg hg, if_neg hlen]

/-- Witness for C6's amended statement: index 5 into a one-collection
workspace whose collection has no requests. -/
theorem c6_high_index_mutators_noop_witness :
    deleteRequest [⟨"W", [⟨"C", []⟩]⟩] "W" 0 5 true =
      some [⟨"W", [⟨"C", []⟩]⟩] ∧
    editRequestName [⟨"W", [⟨"C", []⟩]⟩] "W" 0 5 true "z" =
      some [⟨"W", [⟨"C", []⟩]⟩] :=
  c6_high_index_mutators_noop [⟨"W", [⟨"C", []⟩]⟩] "W" 0 5 true true "z"
    (by
      intro reqs hr
      rw [show requestsAt [⟨"W", [⟨"C", []⟩]⟩] "W" 0 = some [] from by decide]
        at hr
      cases hr
      decide)

/-! ## Claims C8 and C3: header-codec lemmas -/

theorem charToNat_ofNat {n : Nat} (h1 : n < 55296) :
    (Char.ofNat n).toNat = n := by
  have hv : n.isValidChar := Or.inl h1
  simp only [Char.ofNat, dif_pos hv]
  simp [Char.ofNatAux, Char.toNat, UInt32.toNat]

theorem charEq_iff_toNat {a b : Char} : a = b ↔ a.toNat = b.toNat :=
  ⟨fun h => congrArg _ h, fun h => Char.ext (UInt32.ext h)⟩

theorem charLe_iff_toNat {a b : Char} : a ≤ b ↔ a.toNat ≤ b.toNat := Iff.rfl

theorem upAscii_idem (c : Char) : upAscii (upAscii c) = upAscii c := by
  by_cases h : 'a' ≤ c ∧ c ≤ 'z'
  · have h97 : 97 ≤ c.toNat := charLe_iff_toNat.mp h.1
    have h122 : c.toNat ≤ 122 := charLe_iff_toNat.mp h.2
    have hnot : ¬('a' ≤ upAscii c ∧ upAscii c ≤ 'z') := by
      rw [upAscii, if_pos h]
      intro hcon
      have h1 : 97 ≤ (Char.ofNat (c.toNat - 32)).toNat :=
        charLe_iff_toNat.mp hcon.1
      rw [charToNat_ofNat (by omega)] at h1
      omega
    conv_lhs => rw [upAscii]
    rw [if_neg hnot]
  · simp only [upAscii, if_neg h]

theorem downAscii_idem (c : Char) : downAscii (downAscii c) = downAscii c := by
  by_cases h : 'A' ≤ c ∧ c ≤ 'Z'
  · have h65 : 65 ≤ c.toNat := charLe_iff_toNat.mp h.1
    have h90 : c.toNat ≤ 90 := charLe_iff_toNat.mp h.2
    have hnot : ¬('A' ≤ downAscii c ∧ downAscii c ≤ 'Z') := by
      rw [downAscii, if_pos h]
      intro hcon
      have h1 : (Char.ofNat (c.toNat + 32)).toNat ≤ 90 :=
        charLe_iff_toNat.mp hcon.2
      rw [charToNat_ofNat (by omega)] at h1
      omega
    conv_lhs => rw [downAscii]
    rw [if_neg hnot]
  · simp only [downAscii, if_neg h]

theorem canonGo_idem (s : List Char) :
    ∀ u, canonGo u (canonGo u s) = canonGo u s := by
  induction s with
  | nil => intro u; rfl
  | cons c rest ih =>
    intro u
    cases u with
    | true => simp [canonGo, upAscii_idem, ih]
    | false => simp [canonGo, downAscii_idem, ih]

theorem goIsSpace_toNat {c : Char} (h : goIsSpace c = true) :
    c.toNat = 32 ∨ c.toNat = 9 ∨ c.toNat = 10 ∨ c.toNat = 11 ∨
    c.toNat = 12 ∨ c.toNat = 13 ∨ c.toNat = 133 ∨ c.toNat = 160 ∨
    c.toNat = 5760 ∨ (8192 ≤ c.toNat ∧ c.toNat ≤ 8202) ∨
    c.toNat = 8232 ∨ c.toNat = 8233 ∨ c.toNat = 8239 ∨
    c.toNat = 8287 ∨ c.toNat = 12288 := by
  simp only [goIsSpace, decide_eq_true_eq] at h
  rcases h with h|h|h|h|h|h|h|h|h|h|h|h|h|h|h
  all_goals
    first
    | (subst h; decide)
    | (refine Or.inr (Or.inr (Or.inr (Or.inr (Or.inr (Or.inr (Or.inr
        (Or.inr (Or.inr (Or.inl ⟨?_, ?_⟩))))))))) <;>
        [exact charLe_iff_toNat.mp h.1; exact charLe_iff_toNat.mp h.2])

theorem validHeaderFieldChar_toNat {c : Char}
    (h : validHeaderFieldChar c = true) :
    (48 ≤ c.toNat ∧ c.toNat ≤ 57) ∨ (97 ≤ c.toNat ∧ c.toNat ≤ 122) ∨
    (65 ≤ c.toNat ∧ c.toNat ≤ 90) ∨ c.toNat = 33 ∨ c.toNat = 35 ∨
    c.toNat = 36 ∨ c.toNat = 37 ∨ c.toNat = 38 ∨ c.toNat = 39 ∨
    c.toNat = 42 ∨ c.toNat = 43 ∨ c.toNat = 45 ∨ c.toNat = 46 ∨
    c.toNat = 94 ∨ c.toNat = 95 ∨ c.toNat = 96 ∨ c.toNat = 124 ∨
    c.toNat = 126 := by
  simp only [validHeaderFieldChar, decide_eq_true_eq] at h
  rcases h with h|h|h|h|h|h|h|h|h|h|h|h|h|h|h|h|h|h
  · exact Or.inl ⟨charLe_iff_toNat.mp h.1, charLe_iff_toNat.mp h.2⟩
  · exact Or.inr (Or.inl ⟨charLe_iff_toNat.mp h.1, charLe_iff_toNat.mp h.2⟩)
  · exact Or.inr (Or.inr (Or.inl
      ⟨charLe_iff_toNat.mp h.1, charLe_iff_toNat.mp h.2⟩))
  all_goals subst h; decide

theorem valid_not_space {c : Char} (h : validHeaderFieldChar c = true) :
    goIsSpace c = false := by
  by_contra hcon
  rw [Bool.not_eq_false] at hcon
  have h1 := validHeaderFieldChar_toNat h
  have h2 := goIsSpace_toNat hcon
  omega

theorem valid_upAscii {c : Char} (h : validHeaderFieldChar c = true) :
    validHeaderFieldChar (upAscii c) = true := by
  by_cases hl : 'a' ≤ c ∧ c ≤ 'z'
  · have h97 : 97 ≤ c.toNat := charLe_iff_toNat.mp hl.1
    have h122 : c.toNat ≤ 122 := charLe_iff_toNat.mp hl.2
    have htn : (Char.ofNat (c.toNat - 32)).toNat = c.toNat - 32 :=
      charToNat_ofNat (by omega)
    rw [upAscii, if_pos hl]
    simp only [validHeaderFieldChar, decide_eq_true_eq]
    refine Or.inr (Or.inr (Or.inl ⟨?_, ?_⟩))
    · rw [charLe_iff_toNat, htn]
      show 65 ≤ c.toNat - 32
      omega
    · rw [charLe_iff_toNat, htn]
      show c.toNat - 32 ≤ 90
      omega
  · rwa [upAscii, if_neg hl]

theorem valid_downAscii {c : Char} (h : validHeaderFieldChar c = true) :
    validHeaderFieldChar (downAscii c) = true := by
  by_cases hl : 'A' ≤ c ∧ c ≤ 'Z'
  · have h65 : 65 ≤ c.toNat := charLe_iff_toNat.mp hl.1
    have h90 : c.toNat ≤ 90 := charLe_iff_toNat.mp hl.2
    have htn : (Char.ofNat (c.toNat + 32)).toNat = c.toNat + 32 :=
      charToNat_ofNat (by omega)
    rw [downAscii, if_pos hl]
    simp only [validHeaderFieldChar, decide_eq_true_eq]
    refine Or.inr (Or.inl ⟨?_, ?_⟩)
    · rw [charLe_iff_toNat, htn]
      show 97 ≤ c.toNat + 32
      omega
    · rw [charLe_iff_toNat, htn]
      show c.toNat + 32 ≤ 122
      omega
  · rwa [downAscii, if_neg hl]

theorem canonGo_all_valid {s : List Char}
    (h : s.all validHeaderFieldChar = true) :
    ∀ u, (canonGo u s).all validHeaderFieldChar = true := by
  induction s with
  | nil => intro u; rfl
  | cons c rest ih =>
    intro u
    simp only [List.all_cons, Bool.and_eq_true] at h
    cases u with
    | true =>
      simp only [canonGo, if_true, List.all_cons, Bool.and_eq_true]
      exact ⟨valid_upAscii h.1, ih h.2 _⟩
    | false =>
      simp only [canonGo, Bool.false_eq_true, if_false, List.all_cons,
        Bool.and_eq_true]
      exact ⟨valid_downAscii h.1, ih h.2 _⟩

/-- The canonicalization applied by `http.Header.Add` is idempotent. -/
theorem canonicalMIMEHeaderKey_idem (s : List Char) :
    canonicalMIMEHeaderKey (canonicalMIMEHeaderKey s) =
      canonicalMIMEHeaderKey s := by
  by_cases hv : s.all validHeaderFieldChar = true
  · have h1 : canonicalMIMEHeaderKey s = canonGo true s := by
      rw [canonicalMIMEHeaderKey, if_pos hv]
    rw [h1]
    have h2 : canonicalMIMEHeaderKey (canonGo true s) =
        canonGo true (canonGo true s) := by
      rw [canonicalMIMEHeaderKey, if_pos (canonGo_all_valid hv true)]
    rw [h2, canonGo_idem]
  · have h1 : canonicalMIMEHeaderKey s = s := by
      rw [canonicalMIMEHeaderKey, if_neg hv]
    rw [h1, h1]

theorem dropWhile_head_false {p : Char → Bool} {l : List Char} {x : Char}
    (h : (l.dropWhile p).head? = some x) : p x = false := by
  induction l with
  | nil => simp [List.dropWhile] at h
  | cons c rest ih =>
    rw [List.dropWhile_cons] at h
    by_cases hc : p c
    · rw [if_pos hc] at h; exact ih h
    · rw [if_neg hc] at h
      simp only [List.head?_cons, Option.some.injEq] at h
      subst h
      exact Bool.not_eq_true _ ▸ (by simpa using hc)

theorem dropWhile_of_head_false {p : Char → Bool} {l : List Char}
    (h : ∀ x, l.head? = some x → p x = false) : l.dropWhile p = l := by
  cases l with
  | nil => rfl
  | cons c rest =>
    rw [List.dropWhile_cons, if_neg]
    simp [h c rfl]

theorem dropWhile_idem (p : Char → Bool) (l : List Char) :
    (l.dropWhile p).dropWhile p = l.dropWhile p :=
  dropWhile_of_head_false (fun _ hx => dropWhile_head_false hx)

theorem getLast?_dropWhile {p : Char → Bool} {l : List Char} {x : Char}
    (h : (l.dropWhile p).getLast? = some x) : l.getLast? = some x := by
  induction l with
  | nil => simp [List.dropWhile] at h
  | cons c rest ih =>
    rw [List.dropWhile_cons] at h
    by_cases hc : p c
    · rw [if_pos hc] at h
      have hr := ih h
      cases rest with
      | nil => simp at hr
      | cons d tl => rw [List.getLast?_cons_cons]; exact hr
    · rw [if_neg hc] at h; exact h

theorem goTrimSpace_idem (l : List Char) :
    goTrimSpace (goTrimSpace l) = goTrimSpace l := by
  unfold goTrimSpace
  have h1 : (((l.dropWhile goIsSpace).reverse.dropWhile
      goIsSpace).reverse).dropWhile goIsSpace =
      ((l.dropWhile goIsSpace).reverse.dropWhile goIsSpace).reverse := by
    apply dropWhile_of_head_false
    intro x hx
    rw [List.head?_reverse] at hx
    have h2 := getLast?_dropWhile hx
    rw [List.getLast?_reverse] at h2
    exact dropWhile_head_false h2
  rw [h1, List.reverse_reverse, dropWhile_idem]

theorem goTrimSpace_eq_nil {l : List Char} (h : goTrimSpace l = []) :
    ∀ c ∈ l, goIsSpace c = true := by
  intro c hc
  unfold goTrimSpace at h
  rw [List.reverse_eq_nil_iff] at h
  have hsplit := List.takeWhile_append_dropWhile goIsSpace l
  have hc2 : c ∈ l.takeWhile goIsSpace ++ l.dropWhile goIsSpace := by
    rw [hsplit]; exact hc
  rcases List.mem_append.mp hc2 with h1 | h1
  · exact List.mem_takeWhile_imp h1
  · have h2 : c ∈ (l.dropWhile goIsSpace).reverse := List.mem_reverse.mpr h1
    have hsplit2 := List.takeWhile_append_dropWhile goIsSpace
      (l.dropWhile goIsSpace).reverse
    have hc3 : c ∈ (l.dropWhile goIsSpace).reverse.takeWhile goIsSpace ++
        (l.dropWhile goIsSpace).reverse.dropWhile goIsSpace := by
      rw [hsplit2]; exact h2
    rcases List.mem_append.mp hc3 with h3 | h3
    · exact List.mem_takeWhile_imp h3
    · rw [h] at h3; cases h3

theorem goTrimSpace_ne_nil {l : List Char} {c : Char} (hc : c ∈ l)
    (hns : goIsSpace c = false) : goTrimSpace l ≠ [] := by
  intro h
  have h2 := goTrimSpace_eq_nil h c hc
  rw [hns] at h2
  cases h2

theorem goTrimSpace_of_no_space {l : List Char}
    (h : ∀ c ∈ l, goIsSpace c = false) : goTrimSpace l = l := by
  unfold goTrimSpace
  rw [dropWhile_of_head_false (fun x hx => h x (List.mem_of_mem_head? hx))]
  rw [dropWhile_of_head_false (fun x hx =>
    h x (List.mem_reverse.mp (List.mem_of_mem_head? hx)))]
  rw [List.reverse_reverse]

theorem goTrimSpace_cons_space {c : Char} (hc : goIsSpace c = true)
    (l : List Char) : goTrimSpace (c :: l) = goTrimSpace l := by
  unfold goTrimSpace
  rw [List.dropWhile_cons, if_pos hc]

theorem mem_goTrimSpace {l : List Char} {c : Char}
    (h : c ∈ goTrimSpace l) : c ∈ l := by
  unfold goTrimSpace at h
  have h1 := List.mem_reverse.mp h
  have h2 := (List.dropWhile_sublist _).subset h1
  have h3 := List.mem_reverse.mp h2
  exact (List.dropWhile_sublist _).subset h3

theorem splitFirstColon_of_append {a : List Char} (b : List Char)
    (h : ':' ∉ a) : splitFirstColon (a ++ ':' :: b) = some (a, b) := by
  induction a with
  | nil => simp [splitFirstColon]
  | cons c a' ih =>
    have hc : ¬(c = ':') := fun hcc => h (hcc ▸ List.mem_cons_self c a')
    rw [List.cons_append, splitFirstColon, if_neg hc,
      ih (fun hm => h (List.mem_cons_of_mem c hm))]
    rfl

theorem splitFirstColon_some {l pre post : List Char}
    (h : splitFirstColon l = some (pre, post)) :
    pre ++ ':' :: post = l ∧ ':' ∉ pre := by
  induction l generalizing pre with
  | nil => cases h
  | cons c rest ih =>
    rw [splitFirstColon] at h
    by_cases hc : c = ':'
    · rw [if_pos hc] at h
      cases h
      subst hc
      exact ⟨rfl, List.not_mem_nil _⟩
    · rw [if_neg hc] at h
      rcases Option.map_eq_some'.mp h with ⟨⟨p1, p2⟩, hp, he⟩
      cases he
      obtain ⟨h1, h2⟩ := ih hp
      constructor
      · rw [List.cons_append, h1]
      · intro hm
        rcases List.mem_cons.mp hm with h3 | h3
        · exact hc h3.symm
        · exact h2 h3

theorem goSplit_not_mem (sep : Char) (s : List Char) :
    ∀ l ∈ goSplit sep s, sep ∉ l := by
  induction s with
  | nil =>
    intro l hl
    simp only [goSplit, List.mem_singleton] at hl
    subst hl
    exact List.not_mem_nil _
  | cons c rest ih =>
    intro l hl
    rw [goSplit] at hl
    by_cases hc : c = sep
    · rw [if_pos hc] at hl
      rcases List.mem_cons.mp hl with h1 | h1
      · subst h1; exact List.not_mem_nil _
      · exact ih l h1
    · rw [if_neg hc] at hl
      cases hsp : goSplit sep rest with
      | nil =>
        rw [hsp] at hl
        simp only [List.mem_singleton] at hl
        subst hl
        intro hm
        rcases List.mem_cons.mp hm with h1 | h1
        · exact hc h1.symm
        · cases h1
      | cons hd tl =>
        rw [hsp] at hl
        rcases List.mem_cons.mp hl with h1 | h1
        · subst h1
          intro hm
          rcases List.mem_cons.mp hm with h2 | h2
          · exact hc h2.symm
          · exact ih hd (hsp ▸ List.mem_cons_self hd tl) h2
        · exact ih l (hsp ▸ List.mem_cons_of_mem hd h1)

theorem goSplit_ne_nil (sep : Char) (s : List Char) :
    goSplit sep s ≠ [] := by
  cases s with
  | nil => simp [goSplit]
  | cons c rest =>
    rw [goSplit]
    by_cases hc : c = sep
    · rw [if_pos hc]; simp
    · rw [if_neg hc]
      cases hsp : goSplit sep rest <;> simp

theorem goSplit_append (sep : Char) {a : List Char} (rest : List Char)
    (h : sep ∉ a) : goSplit sep (a ++ sep :: rest) = a :: goSplit sep rest := by
  induction a with
  | nil => simp [goSplit]
  | cons c a' ih =>
    have hc : ¬(c = sep) := fun hcc => h (hcc ▸ List.mem_cons_self c a')
    rw [List.cons_append, goSplit, if_neg hc,
      ih (fun hm => h (List.mem_cons_of_mem c hm))]

theorem foldl_append_filterMap {α β : Type} (f : α → Option β)
    (step : List β → α → List β)
    (hstep : ∀ acc x, step acc x = acc ++ (f x).toList) (l : List α) :
    ∀ acc, l.foldl step acc = acc ++ l.filterMap f := by
  induction l with
  | nil => simp
  | cons x rest ih =>
    intro acc
    rw [List.foldl_cons, hstep, ih, List.filterMap_cons]
    cases hf : f x <;> simp [List.append_assoc]

theorem parseHeaders_foldl (lines : List (List Char)) (acc : HeaderEntries) :
    lines.foldl
      (fun h line =>
        if goTrimSpace line = [] then h
        else
          match splitFirstColon line with
          | none => h
          | some (pre, post) =>
            headerAdd h (goTrimSpace pre) (goTrimSpace post))
      acc
    = acc ++ lines.filterMap
        (fun line =>
          if goTrimSpace line = [] then none
          else
            match splitFirstColon line with
            | none => none
            | some (pre, post) =>
              some (canonicalMIMEHeaderKey (goTrimSpace pre),
                goTrimSpace post)) := by
  refine foldl_append_filterMap _ _ (fun acc line => ?_) lines acc
  by_cases h1 : goTrimSpace line = []
  · simp [if_pos h1]
  · cases h2 : splitFirstColon line with
    | none => simp [if_neg h1, h2]
    | some p =>
      obtain ⟨pre, post⟩ := p
      simp [if_neg h1, h2, headerAdd]

/-- The fold of `parseHeaders` produces exactly one entry per parsed
line. -/
theorem parseHeaders_eq_spec (s : List Char) :
    parseHeaders s = parseHeadersSpec s := by
  unfold parseHeaders parseHeadersSpec
  rw [parseHeaders_foldl]
  rfl

/-- Claim C8 amended: `parseHeaders` splits on newlines, skips
whitespace-only lines, splits each remaining line at the first colon
only, silently drops colonless lines, trims key and value, produces one
entry per line (multiplicity preserved, in line order per key), and —
beyond the trim — CANONICALIZES the key via `http.Header.Add` (MIME
canonical form when the key consists solely of valid header-token
characters, unchanged otherwise): the equality with `parseHeadersSpec`,
which is written exactly as this description reads. -/
theorem c8_parseHeaders_characterization (s : List Char) :
    parseHeaders s = parseHeadersSpec s :=
  parseHeaders_eq_spec s

/-- The four structural properties of any key that `parseHeaders` can
produce: it is trim-fixed, canonicalization-fixed, and contains neither
a colon nor a newline. -/
theorem key_props {pre : List Char} (hcolon : ':' ∉ pre)
    (hnl : '\n' ∉ pre) :
    goTrimSpace (canonicalMIMEHeaderKey (goTrimSpace pre)) =
      canonicalMIMEHeaderKey (goTrimSpace pre) ∧
    canonicalMIMEHeaderKey (canonicalMIMEHeaderKey (goTrimSpace pre)) =
      canonicalMIMEHeaderKey (goTrimSpace pre) ∧
    ':' ∉ canonicalMIMEHeaderKey (goTrimSpace pre) ∧
    '\n' ∉ canonicalMIMEHeaderKey (goTrimSpace pre) := by
  refine ⟨?_, canonicalMIMEHeaderKey_idem _, ?_, ?_⟩
  all_goals
    by_cases hv : (goTrimSpace pre).all validHeaderFieldChar = true
  · -- trim-fixed, valid branch
    rw [canonicalMIMEHeaderKey, if_pos hv]
    have hkv := canonGo_all_valid hv true
    exact goTrimSpace_of_no_space
      (fun c hc => valid_not_space (List.all_eq_true.mp hkv c hc))
  · rw [canonicalMIMEHeaderKey, if_neg hv]
    exact goTrimSpace_idem pre
  · -- no colon, valid branch
    rw [canonicalMIMEHeaderKey, if_pos hv]
    intro hm
    have hkv := canonGo_all_valid hv true
    have := List.all_eq_true.mp hkv _ hm
    exact absurd this (by decide)
  · rw [canonicalMIMEHeaderKey, if_neg hv]
    exact fun hm => hcolon (mem_goTrimSpace hm)
  · -- no newline, valid branch
    rw [canonicalMIMEHeaderKey, if_pos hv]
    intro hm
    have hkv := canonGo_all_valid hv true
    have := List.all_eq_true.mp hkv _ hm
    exact absurd this (by decide)
  · rw [canonicalMIMEHeaderKey, if_neg hv]
    exact fun hm => hnl (mem_goTrimSpace hm)

theorem joinComma_no_newline {vs : List (List Char)}
    (h : ∀ v ∈ vs, '\n' ∉ v) : '\n' ∉ joinComma vs := by
  induction vs with
  | nil => simp [joinComma]
  | cons v rest ih =>
    cases rest with
    | nil => simpa [joinComma] using h v (List.mem_cons_self _ _)
    | cons w tl =>
      intro hm
      rw [show joinComma (v :: w :: tl) =
        v ++ ',' :: ' ' :: joinComma (w :: tl) from rfl] at hm
      rcases List.mem_append.mp hm with h1 | h1
      · exact h v (List.mem_cons_self _ _) h1
      · rcases List.mem_cons.mp h1 with h2 | h2
        · cases h2
        · rcases List.mem_cons.mp h2 with h3 | h3
          · cases h3
          · exact ih (fun x hx => h x (List.mem_cons_of_mem _ hx)) h3

/-- Every entry of `parseHeaders` comes from a line: a colon-free,
newline-free prefix and a newline-free suffix. -/
theorem parseHeaders_mem {t : List Char} {e : List Char × List Char}
    (h : e ∈ parseHeaders t) :
    ∃ pre post, ':' ∉ pre ∧ '\n' ∉ pre ∧ '\n' ∉ post ∧
      e = (canonicalMIMEHeaderKey (goTrimSpace pre), goTrimSpace post) := by
  rw [parseHeaders_eq_spec, parseHeadersSpec] at h
  rcases List.mem_filterMap.mp h with ⟨line, hline, hf⟩
  by_cases h1 : goTrimSpace line = []
  · rw [if_pos h1] at hf; cases hf
  · rw [if_neg h1] at hf
    cases h2 : splitFirstColon line with
    | none => rw [h2] at hf; cases hf
    | some p =>
      obtain ⟨pre, post⟩ := p
      simp only [h2] at hf
      obtain ⟨hrec, hcolon⟩ := splitFirstColon_some h2
      have hnl_line : '\n' ∉ line := goSplit_not_mem '\n' t line hline
      refine ⟨pre, post, hcolon, ?_, ?_, (Option.some.inj hf).symm⟩
      · intro hm
        exact hnl_line (hrec ▸ List.mem_append.mpr (Or.inl hm))
      · intro hm
        exact hnl_line
          (hrec ▸ List.mem_append.mpr (Or.inr (List.mem_cons_of_mem _ hm)))

theorem keysOf_parseHeaders_props {t k : List Char}
    (h : k ∈ keysOf (parseHeaders t)) :
    goTrimSpace k = k ∧ canonicalMIMEHeaderKey k = k ∧
    ':' ∉ k ∧ '\n' ∉ k := by
  rw [keysOf, List.mem_dedup] at h
  rcases List.mem_map.mp h with ⟨e, he, hk⟩
  rcases parseHeaders_mem he with ⟨pre, post, hc, hn, _, heq⟩
  have hk1 : k = canonicalMIMEHeaderKey (goTrimSpace pre) := by
    rw [← hk, heq]
  rw [hk1]
  exact key_props hc hn

theorem parseHeaders_values_no_newline {t k : List Char} :
    ∀ v ∈ valuesOf (parseHeaders t) k, '\n' ∉ v := by
  intro v hv
  rw [valuesOf] at hv
  rcases List.mem_map.mp hv with ⟨e, he, hev⟩
  rcases parseHeaders_mem (List.mem_filter.mp he).1 with
    ⟨pre, post, _, _, hnp, heq⟩
  have hv2 : v = goTrimSpace post := by rw [← hev, heq]
  rw [hv2]
  exact fun hm => hnp (mem_goTrimSpace hm)

/-- Re-parsing the flattened text yields exactly one entry per key,
whose value is the whitespace-trimmed joined value. -/
theorem parseHeaders_flattenLines (h : HeaderEntries) :
    ∀ ks : List (List Char),
      (∀ k ∈ ks, goTrimSpace k = k ∧ canonicalMIMEHeaderKey k = k ∧
        ':' ∉ k ∧ '\n' ∉ k) →
      (∀ k ∈ ks, '\n' ∉ joinComma (valuesOf h k)) →
      parseHeaders (flattenLines h ks) =
        ks.map (fun k => (k, goTrimSpace (joinComma (valuesOf h k)))) := by
  intro ks
  induction ks with
  | nil => intro _ _; rfl
  | cons k ks' ih =>
    intro hkp hkj
    have hJ : '\n' ∉ joinComma (valuesOf h k) := hkj k (List.mem_cons_self _ _)
    obtain ⟨hkt, hkc, hkcolon, hknl⟩ := hkp k (List.mem_cons_self _ _)
    have hshape : flattenLines h (k :: ks')
        = (k ++ ':' :: ' ' :: joinComma (valuesOf h k)) ++
          '\n' :: flattenLines h ks' := by
      simp [flattenLines, List.append_assoc]
    have hnosep : '\n' ∉ (k ++ ':' :: ' ' :: joinComma (valuesOf h k)) := by
      intro hm
      rcases List.mem_append.mp hm with h1 | h1
      · exact hknl h1
      · rcases List.mem_cons.mp h1 with h2 | h2
        · cases h2
        · rcases List.mem_cons.mp h2 with h3 | h3
          · cases h3
          · exact hJ h3
    have hline_ne : goTrimSpace (k ++ ':' :: ' ' ::
        joinComma (valuesOf h k)) ≠ [] :=
      goTrimSpace_ne_nil
        (List.mem_append.mpr (Or.inr (List.mem_cons_self _ _))) (by decide)
    have hsplit : splitFirstColon (k ++ ':' :: ' ' ::
        joinComma (valuesOf h k)) =
        some (k, ' ' :: joinComma (valuesOf h k)) :=
      splitFirstColon_of_append _ hkcolon
    have htail : parseHeaders (flattenLines h ks') =
        ks'.map (fun k => (k, goTrimSpace (joinComma (valuesOf h k)))) :=
      ih (fun x hx => hkp x (List.mem_cons_of_mem _ hx))
        (fun x hx => hkj x (List.mem_cons_of_mem _ hx))
    rw [parseHeaders_eq_spec, parseHeadersSpec] at htail ⊢
    rw [hshape, goSplit_append '\n' _ hnosep, List.filterMap_cons, htail]
    simp only [if_neg hline_ne, hsplit]
    rw [goTrimSpace_cons_space (by decide), hkt, hkc, List.map_cons]

/-- Evaluating `valuesOf` on a one-entry-per-key list built over
duplicate-free keys. -/
theorem valuesOf_map_keys (f : List Char → List Char) (k : List Char) :
    ∀ ks : List (List Char), ks.Nodup →
      valuesOf (ks.map (fun x => (x, f x))) k =
        if k ∈ ks then [f k] else [] := by
  intro ks
  induction ks with
  | nil => intro _; simp [valuesOf]
  | cons a ks' ih =>
    intro hnd
    rw [List.nodup_cons] at hnd
    by_cases hak : a = k
    · subst hak
      have h1 : valuesOf (ks'.map (fun x => (x, f x))) a = [] := by
        rw [ih hnd.2, if_neg hnd.1]
      simp only [valuesOf, List.map_cons, List.filter_cons] at h1 ⊢
      rw [if_pos (by simp)]
      simp only [List.map_cons, h1.symm]
      simp [valuesOf, List.mem_cons]
    · have h1 := ih hnd.2
      simp only [valuesOf, List.map_cons, List.filter_cons] at h1 ⊢
      rw [if_neg (by simpa using fun hc => hak hc)]
      rw [h1]
      by_cases hk : k ∈ ks'
      · rw [if_pos hk, if_pos (List.mem_cons_of_mem _ hk)]
      · rw [if_neg hk, if_neg (by
          intro hm
          rcases List.mem_cons.mp hm with h2 | h2
          · exact hak h2.symm
          · exact hk h2)]

/-- Claim C3 is false as stated: for the header block `"K: x\nK:"` the
key `K` has joined value `"x, "` (the empty second value leaves a
trailing space); flattening and re-parsing trims it to `"x,"`, so the
(key, joined-value) pair is NOT preserved. -/
theorem c3_counterexample :
    joinComma (valuesOf (parseHeaders (flattenLines
        (parseHeaders "K: x\nK:".data)
        (keysOf (parseHeaders "K: x\nK:".data)))) "K".data) ≠
      joinComma (valuesOf (parseHeaders "K: x\nK:".data) "K".data) := by
  decide

/-- Claim C3 amended: `parseHeaders` after `flattenHeaders` after
`parseHeaders` yields, for every key of the original parse (`ks` is the
key set, in any iteration order of the Go map), exactly one entry whose
value is the whitespace-TRIMMED joined value; this equals the original
joined value (true idempotence) whenever the joined value carries no
trailing whitespace — it differs exactly when a key's last duplicate
value is empty, as in the counterexample.  Order of duplicate values
within a key is preserved inside the join. -/
theorem c3_flatten_reparse_trim (t : List Char) (ks : List (List Char))
    (hnd : ks.Nodup) (hks : ∀ x ∈ ks, x ∈ keysOf (parseHeaders t))
    (k : List Char) :
    valuesOf (parseHeaders (flattenLines (parseHeaders t) ks)) k =
      if k ∈ ks then
        [goTrimSpace (joinComma (valuesOf (parseHeaders t) k))]
      else [] := by
  rw [parseHeaders_flattenLines (parseHeaders t) ks
    (fun x hx => keysOf_parseHeaders_props (hks x hx))
    (fun x _ => joinComma_no_newline (parseHeaders_values_no_newline))]
  exact valuesOf_map_keys _ k ks hnd

/-- Witness for C3's amended statement on the block `"A: x\nA: y"` with
the Go map's key set. -/
theorem c3_flatten_reparse_trim_witness :
    valuesOf (parseHeaders (flattenLines
        (parseHeaders "A: x\nA: y".data)
        (keysOf (parseHeaders "A: x\nA: y".data)))) "A".data =
      if "A".data ∈ keysOf (parseHeaders "A: x\nA: y".data) then
        [goTrimSpace (joinComma
          (valuesOf (parseHeaders "A: x\nA: y".data) "A".data))]
      else [] :=
  c3_flatten_reparse_trim "A: x\nA: y".data
    (keysOf (parseHeaders "A: x\nA: y".data)) (by decide)
    (fun x hx => hx) "A".data

/-! ## Claim C4: persistence round trip -/

/-- A list that is already strictly key-sorted is fixed by
`sortHeaders`. -/
theorem charListLt_irrefl : ∀ l : List Char, charListLt l l = false := by
  intro l
  induction l with
  | nil => rfl
  | cons c rest ih => rw [charListLt, if_pos rfl, ih]

theorem keyLt_ne {a b : String} (h : keyLt a b = true) : a ≠ b := by
  intro he
  rw [he, keyLt, charListLt_irrefl] at h
  cases h

theorem sortHeaders_sorted_id (l : List (String × String))
    (h : l.Pairwise (fun a b => keyLt a.1 b.1 = true)) : sortHeaders l = l := by
  induction l with
  | nil => rfl
  | cons e rest ih =>
    rw [List.pairwise_cons] at h
    show insertSorted e (sortHeaders rest) = e :: rest
    rw [ih h.2]
    cases rest with
    | nil => rfl
    | cons f rest' =>
      rw [insertSorted, if_pos (h.1 f (List.mem_cons_self _ _))]

theorem mapInsert_fresh (l : List (String × String)) (k v : String)
    (h : k ∉ l.map Prod.fst) : mapInsert l k v = l ++ [(k, v)] := by
  induction l with
  | nil => rfl
  | cons e rest ih =>
    rw [List.map_cons] at h
    have h1 : ¬(e.1 = k) := by
      intro hc
      exact h (by rw [← hc]; exact List.mem_cons_self _ _)
    have h2 : k ∉ rest.map Prod.fst := fun hc => h (List.mem_cons_of_mem _ hc)
    rw [mapInsert, if_neg h1, ih h2, List.cons_append]

theorem decodeHeadersLoop_fresh (l : List (String × String)) :
    ∀ acc : List (String × String),
      (∀ e ∈ l, e.1 ∉ acc.map Prod.fst) → (l.map Prod.fst).Nodup →
      decodeHeadersLoop acc (l.map (fun e => (e.1, Json.str e.2))) =
        .ok (acc ++ l) := by
  induction l with
  | nil => intro acc _ _; simp [decodeHeadersLoop]
  | cons e rest ih =>
    intro acc hfresh hnd
    rw [List.map_cons] at hnd
    rw [List.nodup_cons] at hnd
    have hstep : decodeHeadersLoop acc
        ((e :: rest).map (fun x => (x.1, Json.str x.2))) =
        decodeHeadersLoop (mapInsert acc e.1 e.2)
          (rest.map (fun x => (x.1, Json.str x.2))) := rfl
    rw [hstep, mapInsert_fresh acc e.1 e.2 (hfresh e (List.mem_cons_self _ _))]
    rw [ih (acc ++ [e]) ?_ hnd.2]
    · rw [List.append_assoc]
      rfl
    · intro x hx hc
      rw [List.map_append] at hc
      rcases List.mem_append.mp hc with h1 | h1
      · exact hfresh x (List.mem_cons_of_mem _ hx) h1
      · simp only [List.map_cons, List.map_nil, List.mem_singleton] at h1
        exact hnd.1 (h1 ▸ List.mem_map_of_mem Prod.fst hx)

theorem decodeHeaders_encode {hs : List (String × String)}
    (h : hs.Pairwise (fun a b => keyLt a.1 b.1 = true)) :
    decodeHeaders [] (encodeHeaders hs) = .ok hs := by
  have hnd : (hs.map Prod.fst).Nodup := by
    have h2 : (hs.map Prod.fst).Pairwise (fun a b => keyLt a b = true) :=
      List.pairwise_map.mpr h
    exact h2.imp (fun hab => keyLt_ne hab)
  rw [encodeHeaders, sortHeaders_sorted_id hs h]
  show (decodeHeadersLoop [] (hs.map (fun e => (e.1, Json.str e.2)))).map
      sortHeaders = .ok hs
  rw [decodeHeadersLoop_fresh hs [] (by simp) hnd]
  show Except.ok (sortHeaders ([] ++ hs)) = .ok hs
  rw [List.nil_append, sortHeaders_sorted_id hs h]

theorem decodeRequest_encode (r : APIRequest)
    (hr : r.headers.Pairwise (fun a b => keyLt a.1 b.1 = true)) :
    decodeRequest (encodeRequest r) = .ok r := by
  have hh : decodeHeaders [] (encodeHeaders r.headers) = .ok r.headers :=
    decodeHeaders_encode hr
  show Except.bind (decodeHeaders [] (encodeHeaders r.headers))
      (fun h => Except.ok ⟨r.name, r.method, r.url, h, r.body⟩) =
    Except.ok r
  rw [hh]
  rfl

theorem mapM_decode_encode {α : Type} (enc : α → Json)
    (dec : Json → Except String α) (l : List α)
    (h : ∀ x ∈ l, dec (enc x) = .ok x) : (l.map enc).mapM dec = .ok l := by
  induction l with
  | nil => rfl
  | cons x rest ih =>
    rw [List.map_cons, List.mapM_cons, h x (List.mem_cons_self _ _),
      ih (fun y hy => h y (List.mem_cons_of_mem _ hy))]
    rfl

theorem decodeCollection_encode (c : Collection)
    (hc : ∀ r ∈ c.requests,
      r.headers.Pairwise (fun a b => keyLt a.1 b.1 = true)) :
    decodeCollection (encodeCollection c) = .ok c := by
  have hreqs : decodeRequestList [] (.arr (c.requests.map encodeRequest)) =
      .ok c.requests := by
    rw [decodeRequestList]
    exact mapM_decode_encode _ _ _ (fun r hr => decodeRequest_encode r (hc r hr))
  show Except.bind (decodeRequestList []
      (Json.arr (c.requests.map encodeRequest)))
      (fun v => Except.ok ⟨c.name, v⟩) = Except.ok c
  rw [hreqs]
  rfl

theorem decodeWorkspace_encode (w : Workspace)
    (hw : ∀ c ∈ w.collections, ∀ r ∈ c.requests,
      r.headers.Pairwise (fun a b => keyLt a.1 b.1 = true)) :
    decodeWorkspace (encodeWorkspace w) = .ok w := by
  have hcols : decodeCollectionList []
      (.arr (w.collections.map encodeCollection)) = .ok w.collections := by
    rw [decodeCollectionList]
    exact mapM_decode_encode _ _ _
      (fun c hc => decodeCollection_encode c (hw c hc))
  show Except.bind (decodeCollectionList []
      (Json.arr (w.collections.map encodeCollection)))
      (fun v => Except.ok ⟨w.name, v⟩) = Except.ok w
  rw [hcols]
  rfl

/-- Claim C4: saving the workspace list and loading it back reproduces
an equal ordered structure — same workspaces, collections, requests, in
order, with equal fields.  The hypothesis states that every request's
header map is in its canonical representation (key-sorted, no duplicate
keys), which is an invariant of Go `map[string]string` values. -/
theorem c4_save_load_roundtrip (ws : List Workspace)
    (h : ∀ w ∈ ws, ∀ c ∈ w.collections, ∀ r ∈ c.requests,
      r.headers.Pairwise (fun a b => keyLt a.1 b.1 = true)) :
    loadWorkspaces (FileContent.wellFormed (saveWorkspaces ws)) =
      .ok ws := by
  show decodeWorkspaceList (saveWorkspaces ws) = .ok ws
  rw [saveWorkspaces, decodeWorkspaceList]
  exact mapM_decode_encode _ _ _
    (fun w hw => decodeWorkspace_encode w (h w hw))

/-- Witness for C4 at a one-workspace store with one collection and one
request holding a two-entry header map. -/
theorem c4_save_load_roundtrip_witness :
    loadWorkspaces (FileContent.wellFormed (saveWorkspaces
      [⟨"W", [⟨"C", [⟨"n", "POST", "u", [("a", "1"), ("b", "2")], "b"⟩]⟩]⟩]))
      = .ok [⟨"W", [⟨"C", [⟨"n", "POST", "u",
          [("a", "1"), ("b", "2")], "b"⟩]⟩]⟩] :=
  c4_save_load_roundtrip _ (by decide)

end Postman
